import Mathlib

/-!
Verification of the orchestration core of the `clyde-playwright-script`
repository against its natural-language specification.

The development shallowly embeds the pure decision logic of the sources:

* `src/tests/example.spec.ts` — record parser (`parseMalformedData`),
  grouper (`groupByReceipt`), batch scheduler (`chunkArray`), phase-1
  submit/classification logic (`waitForSubmitResult` / `processReceipt`),
  phase-2 runbook parameter collection, phase-3 drain-loop stall detection
  (`submitOpenedReceipts`).
* `src/splitData.js` — the union-find based graph partitioner.
* the blacklist aggregation script — ledger aggregation.

Machine integers are embedded as `Int`/`Nat`; JavaScript `parseInt`'s `NaN`
result is embedded as `none : Option Int`, so a grouping key has type
`Option Int` (JavaScript `Map`s treat `NaN` as a single ordinary key, which
`none` models exactly).  Stateful loops become explicit state passing with
the environment's responses supplied as lists of observations.
-/

/- ================================================================== -/
/- JavaScript-semantics helpers                                        -/
/- ================================================================== -/

/-- JavaScript `Set.prototype.add` on an insertion-ordered set. -/
def jsSetAdd {α : Type} [DecidableEq α] (s : List α) (x : α) : List α :=
  if x ∈ s then s else s ++ [x]

/-- Embedding of JavaScript `[...new Set(list)]`: insert every element in
order into an insertion-ordered set, which removes duplicates keeping the
first occurrence of each element. -/
def jsDedup {α : Type} [DecidableEq α] (l : List α) : List α :=
  l.foldl jsSetAdd []

/-- Recursive characterization of first-occurrence deduplication, used to
reason about `jsDedup`. -/
def jsDedupRec {α : Type} [DecidableEq α] : List α → List α
  | [] => []
  | x :: xs => x :: jsDedupRec (xs.filter (fun y => decide (y ≠ x)))
termination_by l => l.length
decreasing_by
  simp only [List.length_cons]
  have := List.length_filter_le (fun y => decide (y ≠ x)) xs
  omega

/-- The index of the first occurrence of `a` in `l` (`l.length` when
absent), used to state first-seen-order properties. -/
def firstIdx {α : Type} [DecidableEq α] (l : List α) (a : α) : Nat :=
  l.findIdx (fun y => decide (y = a))

/-- `lStartsWith pat l`: `pat` is an initial segment of `l`. -/
def lStartsWith {α : Type} [DecidableEq α] : List α → List α → Bool
  | [], _ => true
  | _ :: _, [] => false
  | p :: ps, x :: xs => decide (p = x) && lStartsWith ps xs

/-- `lContainsSeq pat l`: `pat` occurs contiguously somewhere inside `l`. -/
def lContainsSeq {α : Type} [DecidableEq α] (pat : List α) : List α → Bool
  | [] => lStartsWith pat []
  | x :: xs => lStartsWith pat (x :: xs) || lContainsSeq pat xs

/-- Embedding of JavaScript `String.prototype.includes`: `pat` occurs as a
contiguous substring of `s`. -/
def strContains (s pat : String) : Bool :=
  lContainsSeq pat.data s.data

/-- Embedding of JavaScript `String.prototype.split` with a single-character
separator (the sources only split on `'\t'`). -/
def splitOnChar (sep : Char) : List Char → List (List Char)
  | [] => [[]]
  | c :: cs =>
    if c = sep then [] :: splitOnChar sep cs
    else
      match splitOnChar sep cs with
      | [] => [[c]]
      | h :: t => (c :: h) :: t

/-- `line.split('\t')`. -/
def strSplitTab (s : String) : List String :=
  (splitOnChar '\t' s.data).map String.mk

/-- Embedding of JavaScript `String.prototype.trim`: strip leading and
trailing whitespace. -/
def strTrim (s : String) : String :=
  String.mk (((s.data.dropWhile (fun c => c.isWhitespace)).reverse.dropWhile
    (fun c => c.isWhitespace)).reverse)

/-- Embedding of JavaScript `String.prototype.toUpperCase` (ASCII). -/
def strToUpper (s : String) : String :=
  String.mk (s.data.map Char.toUpper)

/-- Embedding of JavaScript `Array.prototype.join(sep)`. -/
def joinSep (sep : String) : List String → String
  | [] => ""
  | [x] => x
  | x :: y :: t => x ++ sep ++ joinSep sep (y :: t)

/-- Numeric value of a list of decimal digit characters. -/
def digitsVal (ds : List Char) : Nat :=
  ds.foldl (fun n c => 10 * n + (c.toNat - 48)) 0

/-- Embedding of JavaScript `parseInt(s, 10)` (on already-trimmed input the
source always calls it after `.trim()`): optional sign followed by a maximal
run of decimal digits; `none` models the `NaN` result. -/
def parseIntJS (s : String) : Option Int :=
  let t := strTrim s
  let signAndRest : Int × List Char :=
    match t.data with
    | '-' :: cs => (-1, cs)
    | '+' :: cs => (1, cs)
    | cs => (1, cs)
  let ds := signAndRest.2.takeWhile (fun c => c.isDigit)
  if ds.isEmpty then none
  else some (signAndRest.1 * (digitsVal ds : Int))

/-- Stringification of a JavaScript number that is either an integer or
`NaN` (template literals and `Array.prototype.join` use this form). -/
def jsNumToString : Option Int → String
  | none => "NaN"
  | some i => i.repr

/- ================================================================== -/
/- Record parser (`parseMalformedData`, example.spec.ts)               -/
/- ================================================================== -/

/-- One parsed record of the malformed-data feed (interface
`MalformedEntry` in `example.spec.ts`).  `difference` keeps the raw column
16 text: the source parses it with `parseFloat` but never uses the value,
and floating point is outside this embedding. -/
structure MalformedEntry where
  armIndex : Option Int
  invMasterIndex : Option Int
  invNumber : String
  rcptMasterIndex : Option Int
  difference : String
  status : String
  rawLine : String
deriving DecidableEq, Repr

/-- Embedding of the per-line body of `parseMalformedData`: split on tabs,
extract columns 0, 1, 2, 4, 16 and the optional trailing status column 17
(defaulting to `'CORRUPTED'` when absent).  Returns `none` when the line
has fewer than 17 columns, where the JavaScript code would crash
dereferencing a missing column. -/
def parseMalformedLine (line : String) : Option MalformedEntry :=
  let cols := strSplitTab line
  if 17 ≤ cols.length then
    some
      { armIndex := parseIntJS (strTrim (cols.getD 0 ""))
        invMasterIndex := parseIntJS (strTrim (cols.getD 1 ""))
        invNumber := strTrim (cols.getD 2 "")
        rcptMasterIndex := parseIntJS (strTrim (cols.getD 4 ""))
        difference := strTrim (cols.getD 16 "")
        status := strToUpper (strTrim (cols.getD 17 "CORRUPTED"))
        rawLine := line }
  else none

/- ================================================================== -/
/- Batch scheduler (`chunkArray`, example.spec.ts)                     -/
/- ================================================================== -/

/-- The error message thrown by `chunkArray` for a non-positive size. -/
def chunkErrorMessage (size : Int) : String :=
  "Invalid batch size: " ++ toString size ++ ". receiptBatchSize must be greater than 0."

/-- The slicing loop of `chunkArray`: `for (index = 0; index < length; index += size)`
pushing `items.slice(index, index + size)`.  Only invoked with `0 < n`;
`fuel` (instantiated with the list length, which dominates the number of
iterations) makes the recursion structural. -/
def chunksGo {α : Type} (n : Nat) : Nat → List α → List (List α)
  | _, [] => []
  | 0, _ :: _ => []
  | fuel + 1, x :: xs => (x :: xs).take n :: chunksGo n fuel ((x :: xs).drop n)

/-- The consecutive `n`-sized slices of a list. -/
def chunksOf {α : Type} (n : Nat) (l : List α) : List (List α) :=
  chunksGo n l.length l

/-- Embedding of `chunkArray`: throws (`Except.error`) on `size ≤ 0`,
otherwise returns the consecutive slices. -/
def chunkArray {α : Type} (items : List α) (size : Int) : Except String (List (List α)) :=
  if size ≤ 0 then .error (chunkErrorMessage size)
  else .ok (chunksOf size.toNat items)

/- ================================================================== -/
/- Phase-3 drain loop stall detection (`submitOpenedReceipts`)         -/
/- ================================================================== -/

/-- Why the phase-3 drain loop stopped. -/
inductive DrainExit where
  | emptied : DrainExit
  | stalled : DrainExit
  | exhausted : DrainExit
deriving DecidableEq, Repr

/-- Loop state of `submitOpenedReceipts`: `lastCount` is
`lastActionListCount` (`none` models the initial `Infinity`), `stalls` is
`consecutiveStalls`, and `opens` counts how many action-list items the loop
has opened. -/
structure DrainState where
  lastCount : Option Nat
  stalls : Nat
  opens : Nat
deriving DecidableEq, Repr

/-- One-per-iteration control skeleton of the `submitOpenedReceipts` loop:
`counts` is the sequence of action-list sizes observed on successive
iterations, `fuel` is the remaining iteration budget (`maxIterations`).
An observed count of `0` ends the drain; a count that did not strictly
decrease bumps `consecutiveStalls` and aborts once it reaches `maxStalls`;
a strict decrease resets `consecutiveStalls` to `0`.  Each non-breaking
iteration opens one item. -/
def drainLoop (maxStalls : Nat) : Nat → DrainState → List Nat → DrainState × DrainExit
  | 0, st, _ => (st, .exhausted)
  | _ + 1, st, [] => (st, .exhausted)
  | fuel + 1, st, c :: rest =>
    if c = 0 then (st, .emptied)
    else
      let isStall : Bool :=
        match st.lastCount with
        | none => false
        | some l => decide (l ≤ c)
      if isStall then
        if maxStalls ≤ st.stalls + 1 then
          ({ st with stalls := st.stalls + 1 }, .stalled)
        else
          drainLoop maxStalls fuel
            { lastCount := some c, stalls := st.stalls + 1, opens := st.opens + 1 } rest
      else
        drainLoop maxStalls fuel
          { lastCount := some c, stalls := 0, opens := st.opens + 1 } rest

/-- The drain loop as `submitOpenedReceipts` runs it: threshold
`maxConsecutiveStalls = 3`, iteration budget `receiptGroups.length + 20`,
starting from `Infinity`/`0`/`0`. -/
def submitOpenedReceiptsRun (numReceipts : Nat) (counts : List Nat) : DrainState × DrainExit :=
  drainLoop 3 (numReceipts + 20) ⟨none, 0, 0⟩ counts

/- ================================================================== -/
/- Unit grouper (`groupByReceipt`, example.spec.ts)                    -/
/- ================================================================== -/

/-- One correction unit (interface `ReceiptGroup` in `example.spec.ts`). -/
structure ReceiptGroup where
  rcptMasterIndex : Option Int
  entries : List MalformedEntry
  invNumbers : List String
  invMasterIndices : List (Option Int)
  rawLines : List String
deriving DecidableEq, Repr

/-- Embedding of `groupByReceipt`: a `Map` keyed by `rcptMasterIndex`
(keys in first-appearance order, each key's entries in input order),
then per group the first-seen-ordered distinct invoice numbers, the
first-seen-ordered distinct `invMasterIndex` values of the `'CORRUPTED'`
entries, and the raw lines. -/
def groupByReceipt (entries : List MalformedEntry) : List ReceiptGroup :=
  (jsDedup (entries.map (·.rcptMasterIndex))).map (fun k =>
    let ge := entries.filter (fun e => decide (e.rcptMasterIndex = k))
    { rcptMasterIndex := k
      entries := ge
      invNumbers := jsDedup (ge.map (·.invNumber))
      invMasterIndices :=
        jsDedup ((ge.filter (fun e => decide (e.status = "CORRUPTED"))).map (·.invMasterIndex))
      rawLines := ge.map (·.rawLine) })

/- ================================================================== -/
/- Phase 1: submit-result polling and failure classification           -/
/- ================================================================== -/

/-- Embedding of `text.replace(/\s+/g, ' ')`: collapse each maximal run of
whitespace to a single space (`inRun` records whether the previous
character was whitespace). -/
def collapseWs (inRun : Bool) : List Char → List Char
  | [] => []
  | c :: cs =>
    if c.isWhitespace then
      if inRun then collapseWs true cs else ' ' :: collapseWs true cs
    else c :: collapseWs false cs

/-- `((text) ?? '').replace(/\s+/g, ' ').trim()` as applied to the receipt
master index locator text. -/
def normWs (s : String) : String :=
  strTrim (String.mk (collapseWs false s.data))

/-- One polling iteration's observations in `waitForSubmitResult`:
the receipt-master-index text (`none` when the locator threw), the popup
message (`none` when no snack-bar is visible), and the re-read index text
used by the final check inside the popup branch. -/
structure SubmitObs where
  idxFirst : Option String
  popup : Option String
  idxSecond : Option String
deriving Repr

/-- Whether an observed index text counts as the `<AUTO>` sentinel. -/
def obsIsAuto : Option String → Bool
  | some t => decide (normWs t = "<AUTO>")
  | none => false

/-- Result record of `waitForSubmitResult` / `waitForPhase3SubmitResult`. -/
structure SubmitResult where
  success : Bool
  popupMessage : Option String
deriving DecidableEq, Repr

/-- The generic timeout failure message of `waitForSubmitResult`. -/
def submitTimeoutMessage (contextLabel : String) : String :=
  "[" ++ contextLabel ++ "] Timed out waiting for submit to complete"

/-- Embedding of the `waitForSubmitResult` polling loop.  Each list element
is one iteration's observations; an exhausted list models the deadline
elapsing.  Success when the index shows `<AUTO>`; failure carrying the
(trimmed) popup text when a popup is visible while the index (re-checked
once) is not `<AUTO>`; the generic timeout failure otherwise. -/
def waitForSubmitResult (contextLabel : String) : List SubmitObs → SubmitResult
  | [] => { success := false, popupMessage := some (submitTimeoutMessage contextLabel) }
  | o :: rest =>
    if obsIsAuto o.idxFirst then { success := true, popupMessage := none }
    else
      match o.popup with
      | some raw =>
        let message := strTrim raw
        if obsIsAuto o.idxSecond then { success := true, popupMessage := some message }
        else { success := false, popupMessage := some message }
      | none => waitForSubmitResult contextLabel rest

/-- The exact blocking phrase tested by `processReceipt` and
`submitOpenedReceipts`. -/
def blockedPhrase : String :=
  "Matter does not allow payment activity. Receipt cannot be reversed."

/-- The externally observable outcome of `processReceipt` for one unit:
whether it survived phase 1 (the returned boolean), whether it was recorded
to the failure ledger (`appendToBlackList`), whether the opened row was
cancelled (`cancelCurrentRow`), and whether a popup was dismissed. -/
structure Phase1Outcome where
  survived : Bool
  ledgered : Bool
  cancelled : Bool
  dismissed : Bool
deriving DecidableEq, Repr

/-- Embedding of the failure-classification tail of `processReceipt`:
on success, return `true`; on failure, if the popup message contains the
blocking phrase then dismiss, blacklist and cancel, returning `false`;
otherwise dismiss and continue, returning `true`. -/
def classifyPhase1 (r : SubmitResult) : Phase1Outcome :=
  if r.success then
    { survived := true, ledgered := false, cancelled := false, dismissed := false }
  else
    let msg := r.popupMessage.getD ""
    if strContains msg blockedPhrase then
      { survived := false, ledgered := true, cancelled := true, dismissed := true }
    else
      { survived := true, ledgered := false, cancelled := false, dismissed := true }

/-- The context label `processReceipt` passes to `waitForSubmitResult`
(template literal `Phase 1 receipt ${receipt.rcptMasterIndex}`). -/
def phase1Label (receipt : ReceiptGroup) : String :=
  "Phase 1 receipt " ++ jsNumToString receipt.rcptMasterIndex

/-- `processReceipt`'s observable outcome for a receipt, given the
submit-result observations for that receipt. -/
def processReceiptOutcome (receipt : ReceiptGroup) (trace : List SubmitObs) : Phase1Outcome :=
  classifyPhase1 (waitForSubmitResult (phase1Label receipt) trace)

/-- The main test's phase-1 loop: the receipts of the batch whose
`processReceipt` call returned `true` (`successfulReceipts`), in order. -/
def phase1Survivors (batch : List ReceiptGroup)
    (traces : ReceiptGroup → List SubmitObs) : List ReceiptGroup :=
  batch.filter (fun r => (processReceiptOutcome r (traces r)).survived)

/- ================================================================== -/
/- Phase 2: runbook parameter collection (main test, example.spec.ts)  -/
/- ================================================================== -/

/-- `[...new Set(successfulReceipts.flatMap(r => r.invMasterIndices))]`. -/
def batchInvMasterIndices (survivors : List ReceiptGroup) : List (Option Int) :=
  jsDedup (survivors.flatMap (·.invMasterIndices))

/-- `batchInvMasterIndices.join(',')`. -/
def batchInvoiceIds (survivors : List ReceiptGroup) : String :=
  joinSep "," ((batchInvMasterIndices survivors).map jsNumToString)

/-- What phase 2 does with the collected parameter: trigger the runbook
when non-empty, otherwise log and skip. -/
inductive Phase2Action where
  | trigger : String → Phase2Action
  | noop : Phase2Action
deriving DecidableEq, Repr

/-- The phase-2 branch of the main test:
`if (batchInvMasterIndices.length > 0) triggerRunbook(..., batchInvoiceIds, ...) else log`. -/
def phase2Action (survivors : List ReceiptGroup) : Phase2Action :=
  if 0 < (batchInvMasterIndices survivors).length then
    .trigger (batchInvoiceIds survivors)
  else .noop

/- ================================================================== -/
/- Graph partitioner (`splitData.js`)                                  -/
/- ================================================================== -/

/-- One parsed row of `splitData.js`: the grouping key (`RcptMaster`,
column 4), the resource-reference (`InvMaster`, column 1), and the raw
line kept for emission. -/
structure SplitRow where
  rcptMaster : Option Int
  invMaster : Option Int
  line : String
deriving DecidableEq, Repr

/-- The `rows = lines.map(...)` parse step of `splitData.js`. -/
def parseSplitRow (line : String) : SplitRow :=
  let cols := strSplitTab line
  { rcptMaster := parseIntJS (strTrim (cols.getD 4 ""))
    invMaster := parseIntJS (strTrim (cols.getD 1 ""))
    line := line }

/-- The keys of `rcptMap`, in first-appearance (insertion) order. -/
def rcptIds (rows : List SplitRow) : List (Option Int) :=
  jsDedup (rows.map (·.rcptMaster))

/-- `rcptMap.get(r).invMasters` as an insertion-ordered list: the distinct
resource-references of the rows with grouping key `r`. -/
def invsOf (rows : List SplitRow) (r : Option Int) : List (Option Int) :=
  jsDedup ((rows.filter (fun w => decide (w.rcptMaster = r))).map (·.invMaster))

/-- `rcptMap.get(r).lines`: the raw lines with grouping key `r`, in order. -/
def linesOf (rows : List SplitRow) (r : Option Int) : List String :=
  (rows.filter (fun w => decide (w.rcptMaster = r))).map (·.line)

/-- The keys of `invToReceipts` (equivalently the members of
`allInvMasters`), in insertion order. -/
def allInvIds (rows : List SplitRow) : List (Option Int) :=
  jsDedup ((rcptIds rows).flatMap (invsOf rows))

/-- `invToReceipts.get(inv)`: the grouping keys whose unit touches `inv`,
in `rcptMap` insertion order. -/
def invReceipts (rows : List SplitRow) (inv : Option Int) : List (Option Int) :=
  (rcptIds rows).filter (fun r => decide (inv ∈ invsOf rows r))

/-- Pointwise update of a total function, the embedding of
`Map.prototype.set` under the absent-key-defaults convention below. -/
def updFn {α β : Type} [DecidableEq α] (f : α → β) (k : α) (v : β) : α → β :=
  fun y => if y = k then v else f y

/-- Union-find state of `splitData.js`.  The JavaScript `parent`/`rank`
maps initialize any absent key `x` to `parent = x`, `rank = 0` on first
access, so they are embedded as total functions with those defaults. -/
structure UF (α : Type) where
  parent : α → α
  rank : α → Nat

/-- The recursive body of `find` with path compression: follow the parent
pointer of `x`, compress `x` to point at the returned root, and return the
root.  The JavaScript recursion is unbounded; `fuel` bounds it in the
embedding and is chosen large enough at every call site (the fallback
`(p, x)` at fuel 0 is unreachable there). -/
def ufFindAux {α : Type} [DecidableEq α] : Nat → (α → α) → α → (α → α) × α
  | 0, p, x => (p, x)
  | fuel + 1, p, x =>
    if p x = x then (p, x)
    else
      let r := ufFindAux fuel p (p x)
      (updFn r.1 x r.2, r.2)

/-- `find(x)` on the union-find state. -/
def ufFind {α : Type} [DecidableEq α] (fuel : Nat) (st : UF α) (x : α) : UF α × α :=
  let r := ufFindAux fuel st.parent x
  ({ st with parent := r.1 }, r.2)

/-- `union(a, b)`: find both roots, then link by rank. -/
def ufUnion {α : Type} [DecidableEq α] (fuel : Nat) (st : UF α) (a b : α) : UF α :=
  let fa := ufFind fuel st a
  let fb := ufFind fuel fa.1 b
  let st2 := fb.1
  let ra := fa.2
  let rb := fb.2
  if ra = rb then st2
  else if st2.rank ra < st2.rank rb then { st2 with parent := updFn st2.parent ra rb }
  else if st2.rank rb < st2.rank ra then { st2 with parent := updFn st2.parent rb ra }
  else { parent := updFn st2.parent rb ra, rank := updFn st2.rank ra (st2.rank ra + 1) }

/-- The initial union-find state (all keys absent). -/
def initUF (α : Type) : UF α := { parent := id, rank := fun _ => 0 }

/-- Fuel passed to every `find` in the pipeline: strictly more than the
number of distinct grouping keys, which bounds every parent chain. -/
def ufFuel (rows : List SplitRow) : Nat := (rcptIds rows).length + 1

/-- The `union receipts that share an invoice` loop:
`for (inv of invToReceipts) for (i = 1; i < receipts.length; i++) union(receipts[0], receipts[i])`. -/
def unionAll (rows : List SplitRow) : UF (Option Int) :=
  (allInvIds rows).foldl
    (fun st inv =>
      match invReceipts rows inv with
      | [] => st
      | r0 :: rest => rest.foldl (fun s ri => ufUnion (ufFuel rows) s r0 ri) st)
    (initUF (Option Int))

/-- `components.get(root).push(rcptId)` on an insertion-ordered map from
roots to receipt buckets. -/
def addToComp (comps : List (Option Int × List (Option Int))) (root r : Option Int) :
    List (Option Int × List (Option Int)) :=
  match comps with
  | [] => [(root, [r])]
  | c :: cs => if c.1 = root then (c.1, c.2 ++ [r]) :: cs else c :: addToComp cs root r

/-- The component-collection loop: for each receipt id in order, `find` its
root (mutating the union-find state through path compression) and append
the receipt to that root's bucket. -/
def componentsFold (rows : List SplitRow) :
    UF (Option Int) × List (Option Int × List (Option Int)) :=
  (rcptIds rows).foldl
    (fun acc r =>
      let f := ufFind (ufFuel rows) acc.1 r
      (f.1, addToComp acc.2 f.2 r))
    (unionAll rows, [])

/-- The connected components of the receipt/invoice affinity graph as
computed by `splitData.js`, in root-first-seen order. -/
def components (rows : List SplitRow) : List (List (Option Int)) :=
  (componentsFold rows).2.map (·.2)

/-- The comparator key of `sortedComponents`: the smallest receipt id of a
component (`Math.min`, where any `NaN` member makes the result `NaN`). -/
def minKey (c : List (Option Int)) : Option Int :=
  c.foldl
    (fun acc r =>
      match acc, r with
      | none, _ => none
      | _, none => none
      | some i, some j => some (min i j))
    (some 2147483647)

/-- A total boolean order on grouping keys used to embed the JavaScript
numeric sort comparators (`NaN` sorts first; every theorem below is
order-insensitive, so only totality matters). -/
def keyLe : Option Int → Option Int → Bool
  | none, _ => true
  | some _, none => false
  | some i, some j => decide (i ≤ j)

/-- `sortedComponents`: components sorted by smallest receipt id. -/
def sortedComponents (rows : List SplitRow) : List (List (Option Int)) :=
  (components rows).insertionSort (fun a b => keyLe (minKey a) (minKey b) = true)

/-- Total entry count of a component (`comp.reduce((sum, r) => sum + rcptMap.get(r).lines.length, 0)`). -/
def compLineCount (rows : List SplitRow) (c : List (Option Int)) : Nat :=
  (c.map (fun r => (linesOf rows r).length)).sum

/-- `compWithSize`: each component with its receipts sorted ascending and
its line count, the whole list sorted by line count descending. -/
def compWithSize (rows : List SplitRow) : List (List (Option Int) × Nat) :=
  ((sortedComponents rows).map
    (fun c => (c.insertionSort (fun a b => keyLe a b = true),
      compLineCount rows c))).insertionSort (fun x y => y.2 ≤ x.2)

/-- `minIdx` scan of the greedy loop: the first index of minimal load. -/
def minLoadIdx (loads : List Nat) : Nat :=
  (List.range loads.length).foldl
    (fun m i => if loads.getD i 0 < loads.getD m 0 then i else m) 0

/-- One step of the greedy first-fit-decreasing assignment: add every
receipt of the component to the least-loaded group and bump its load. -/
def greedyStep (acc : List (List (Option Int)) × List Nat)
    (c : List (Option Int) × Nat) : List (List (Option Int)) × List Nat :=
  let m := minLoadIdx acc.2
  (acc.1.set m (c.1.foldl jsSetAdd (acc.1.getD m [])),
   acc.2.set m (acc.2.getD m 0 + c.2))

/-- The greedy assignment loop over all components, starting from `K`
empty groups with zero load (`NUM_GROUPS = 3` in the source; the group
count is kept as a parameter). -/
def greedyAssign (K : Nat) (cs : List (List (Option Int) × Nat)) :
    List (List (Option Int)) × List Nat :=
  cs.foldl greedyStep (List.replicate K [], List.replicate K 0)

/-- `groupReceipts` for `K` groups. -/
def splitGroups (K : Nat) (rows : List SplitRow) : List (List (Option Int)) :=
  (greedyAssign K (compWithSize rows)).1

/-- `groupLines` for `K` groups. -/
def splitLoads (K : Nat) (rows : List SplitRow) : List Nat :=
  (greedyAssign K (compWithSize rows)).2

/-- The number of groups hard-coded in `splitData.js`. -/
def NUM_GROUPS : Nat := 3

/-- The invoice set of a group (`invI` in the overlap check): the distinct
resource-references touched by the group's receipts. -/
def groupInvs (rows : List SplitRow) (g : List (Option Int)) : List (Option Int) :=
  jsDedup (g.flatMap (invsOf rows))

/-- The receipt overlap the verification step computes for a pair of
groups: `[...groupReceipts[i]].filter(r => groupReceipts[j].has(r))`. -/
def receiptOverlap (gs : List (List (Option Int))) (i j : Nat) : List (Option Int) :=
  (gs.getD i []).filter (fun r => decide (r ∈ gs.getD j []))

/-- The invoice overlap the verification step computes for a pair of
groups: `[...invI].filter(inv => invJ.has(inv))`. -/
def invOverlap (rows : List SplitRow) (gs : List (List (Option Int))) (i j : Nat) :
    List (Option Int) :=
  (groupInvs rows (gs.getD i [])).filter
    (fun inv => decide (inv ∈ groupInvs rows (gs.getD j [])))

/-- The file-emission loop of `splitData.js`, as a function of an arbitrary
list of group receipt sets: each line goes to the first group containing
its grouping key (`break` after the first match), preserving file order.
It is executed unconditionally after the overlap logging. -/
def emitOutputs (rows : List SplitRow) (gs : List (List (Option Int))) :
    List (List String) :=
  (List.range gs.length).map
    (fun i =>
      (rows.filter
        (fun w => decide (gs.findIdx? (fun g => decide (w.rcptMaster ∈ g)) = some i))).map
        (·.line))

/-- The group output files the partitioner writes. -/
def groupOutputs (K : Nat) (rows : List SplitRow) : List (List String) :=
  emitOutputs rows (splitGroups K rows)

/- ================================================================== -/
/- Failure-ledger aggregation (blacklist aggregation script)           -/
/- ================================================================== -/

/-- The newer header format `/^# Receipt (\d+)/`: the literal prefix
`"# Receipt "` followed by at least one digit; the capture is the maximal
leading digit run after the prefix. -/
def fmt1Key (line : String) : Option String :=
  if lStartsWith "# Receipt ".data line.data then
    let ds := (line.data.drop 10).takeWhile (fun c => c.isDigit)
    if ds.isEmpty then none else some (String.mk ds)
  else none

/-- The legacy header format `/^(\d{5,}) .+/`: at least five leading
digits, a space, then at least one further character; the capture is the
maximal leading digit run. -/
def fmt2Key (line : String) : Option String :=
  let ds := line.data.takeWhile (fun c => c.isDigit)
  if 5 ≤ ds.length then
    match line.data.drop ds.length with
    | ' ' :: _ :: _ => some (String.mk ds)
    | [' '] => none
    | _ => none
  else none

/-- `line.includes('\t')`. -/
def hasTab (line : String) : Bool := line.data.contains '\t'

/-- Column 5 (index 4) of a tab-separated data line when it matches
`/^\d+$/`, the extraction used for raw data lines. -/
def dataLineKey (line : String) : Option String :=
  let cols := strSplitTab line
  if 5 ≤ cols.length then
    let c4 := cols.getD 4 ""
    if c4.data ≠ [] ∧ c4.data.all (fun c => c.isDigit) then some c4 else none
  else none

/-- The grouping keys one ledger line contributes to `receiptSet`,
following the aggregation script's branch order: a newer-format header
contributes its key; otherwise a legacy-format match contributes either
column 4 (when the line contains a tab, i.e. is really a data line) or the
leading number; otherwise a tab-separated line contributes column 4. -/
def lineKeys (line : String) : List String :=
  match fmt1Key line with
  | some k => [k]
  | none =>
    match fmt2Key line with
    | some k =>
      if hasTab line then
        match dataLineKey line with
        | some k4 => [k4]
        | none => []
      else [k]
    | none =>
      if hasTab line then
        match dataLineKey line with
        | some k4 => [k4]
        | none => []
      else []

/-- `Number(s)` on the digit-run strings collected by the aggregator. -/
def strNum (s : String) : Nat := digitsVal s.data

/-- The aggregation script over the lines of all blacklist files: collect
keys into the insertion-ordered set, then sort ascending by numeric
value (`[...receiptSet].sort((a, b) => Number(a) - Number(b))`). -/
def aggregateBlacklists (files : List (List String)) : List String :=
  (jsDedup ((files.flatten).flatMap lineKeys)).insertionSort
    (fun a b => strNum a ≤ strNum b)

/- ================================================================== -/
/- Lemmas about the JavaScript-set embedding                           -/
/- ================================================================== -/

theorem jsDedupRec_sublist {α : Type} [DecidableEq α] (l : List α) :
    List.Sublist (jsDedupRec l) l := by
  induction l using jsDedupRec.induct with
  | case1 => simp [jsDedupRec]
  | case2 x xs ih =>
    rw [jsDedupRec]
    exact (ih.trans (List.filter_sublist xs)).cons₂ x

theorem mem_jsDedupRec {α : Type} [DecidableEq α] {a : α} {l : List α} :
    a ∈ jsDedupRec l ↔ a ∈ l := by
  constructor
  · exact fun h => (jsDedupRec_sublist l).subset h
  · induction l using jsDedupRec.induct with
    | case1 => simp
    | case2 x xs ih =>
      intro h
      rw [jsDedupRec]
      rcases List.mem_cons.1 h with h | h
      · exact h ▸ List.mem_cons_self _ _
      · by_cases hx : a = x
        · exact hx ▸ List.mem_cons_self _ _
        · exact List.mem_cons_of_mem _ (ih (List.mem_filter.2 ⟨h, by simpa using hx⟩))

theorem jsDedupRec_nodup {α : Type} [DecidableEq α] (l : List α) : (jsDedupRec l).Nodup := by
  induction l using jsDedupRec.induct with
  | case1 => simp [jsDedupRec]
  | case2 x xs ih =>
    rw [jsDedupRec]
    refine List.nodup_cons.2 ⟨fun h => ?_, ih⟩
    have := List.mem_filter.1 (mem_jsDedupRec.1 h)
    simp at this

theorem firstIdx_cons_self {α : Type} [DecidableEq α] (a : α) (l : List α) :
    firstIdx (a :: l) a = 0 := by
  simp [firstIdx, List.findIdx_cons]

theorem firstIdx_cons_ne {α : Type} [DecidableEq α] {a b : α} (l : List α) (h : a ≠ b) :
    firstIdx (a :: l) b = firstIdx l b + 1 := by
  simp [firstIdx, List.findIdx_cons, h]

theorem filter_firstIdx_lt {α : Type} [DecidableEq α] (p : α → Bool) :
    ∀ (xs : List α) (a b : α), a ∈ xs.filter p → b ∈ xs.filter p →
      firstIdx (xs.filter p) a < firstIdx (xs.filter p) b →
      firstIdx xs a < firstIdx xs b := by
  intro xs
  induction xs with
  | nil => simp
  | cons y ys ih =>
    intro a b ha hb hlt
    by_cases hpy : p y
    · rw [List.filter_cons_of_pos hpy] at ha hb hlt
      by_cases hay : a = y
      · subst hay
        have hba : b ≠ a := by
          intro hba
          subst hba
          simp at hlt
        rw [firstIdx_cons_self, firstIdx_cons_ne _ (fun h => hba h.symm)]
        exact Nat.succ_pos _
      · by_cases hby : b = y
        · subst hby
          rw [firstIdx_cons_ne _ (fun h => hay h.symm), firstIdx_cons_self] at hlt
          omega
        · rw [firstIdx_cons_ne _ (fun h => hay h.symm),
            firstIdx_cons_ne _ (fun h => hby h.symm)] at hlt
          rw [firstIdx_cons_ne _ (fun h => hay h.symm),
            firstIdx_cons_ne _ (fun h => hby h.symm)]
          have := ih a b (by simpa [hay] using ha) (by simpa [hby] using hb) (by omega)
          omega
    · rw [List.filter_cons_of_neg hpy] at ha hb hlt
      have hay : a ≠ y := fun h => hpy (h ▸ (List.mem_filter.1 ha).2)
      have hby : b ≠ y := fun h => hpy (h ▸ (List.mem_filter.1 hb).2)
      rw [firstIdx_cons_ne _ (fun h => hay h.symm),
        firstIdx_cons_ne _ (fun h => hby h.symm)]
      have := ih a b ha hb hlt
      omega

theorem jsDedupRec_pairwise_firstIdx {α : Type} [DecidableEq α] (l : List α) :
    (jsDedupRec l).Pairwise (fun a b => firstIdx l a < firstIdx l b) := by
  induction l using jsDedupRec.induct with
  | case1 => simp [jsDedupRec]
  | case2 x xs ih =>
    rw [jsDedupRec]
    refine List.Pairwise.cons ?_ (ih.imp_of_mem ?_)
    · intro b hb
      have hbf := List.mem_filter.1 (mem_jsDedupRec.1 hb)
      have hbx : b ≠ x := by simpa using hbf.2
      rw [firstIdx_cons_self, firstIdx_cons_ne _ (fun h => hbx h.symm)]
      exact Nat.succ_pos _
    · intro a b ha hb hlt
      have haf := List.mem_filter.1 (mem_jsDedupRec.1 ha)
      have hbf := List.mem_filter.1 (mem_jsDedupRec.1 hb)
      have hax : a ≠ x := by simpa using haf.2
      have hbx : b ≠ x := by simpa using hbf.2
      rw [firstIdx_cons_ne _ (fun h => hax h.symm),
        firstIdx_cons_ne _ (fun h => hbx h.symm)]
      have := filter_firstIdx_lt (fun y => decide (y ≠ x)) xs a b
        (List.mem_filter.2 haf) (List.mem_filter.2 hbf) hlt
      omega

theorem foldl_jsSetAdd_eq {α : Type} [DecidableEq α] :
    ∀ (l acc : List α),
      l.foldl jsSetAdd acc = acc ++ jsDedupRec (l.filter (fun x => decide (x ∉ acc))) := by
  intro l
  induction l with
  | nil => intro acc; simp [jsDedupRec]
  | cons x xs ih =>
    intro acc
    rw [List.foldl_cons]
    by_cases hx : x ∈ acc
    · rw [show jsSetAdd acc x = acc from if_pos hx, ih acc, List.filter_cons]
      simp [hx]
    · rw [show jsSetAdd acc x = acc ++ [x] from if_neg hx, ih (acc ++ [x]),
        List.filter_cons, if_pos (by simpa using hx), jsDedupRec, List.filter_filter,
        List.append_assoc]
      congr 1
      rw [List.singleton_append]
      congr 2
      apply List.filter_congr
      intro y _
      by_cases hya : y ∈ acc <;> by_cases hyx : y = x <;> simp [hya, hyx]

theorem jsDedup_eq_rec {α : Type} [DecidableEq α] (l : List α) : jsDedup l = jsDedupRec l := by
  rw [jsDedup, foldl_jsSetAdd_eq l []]
  simp

theorem mem_jsDedup {α : Type} [DecidableEq α] {a : α} {l : List α} :
    a ∈ jsDedup l ↔ a ∈ l := by
  rw [jsDedup_eq_rec]
  exact mem_jsDedupRec

theorem jsDedup_nodup {α : Type} [DecidableEq α] (l : List α) : (jsDedup l).Nodup := by
  rw [jsDedup_eq_rec]
  exact jsDedupRec_nodup l

/-- `jsDedup` lists elements in order of their first occurrence in the
input. -/
theorem jsDedup_pairwise_firstIdx {α : Type} [DecidableEq α] (l : List α) :
    (jsDedup l).Pairwise (fun a b => firstIdx l a < firstIdx l b) := by
  rw [jsDedup_eq_rec]
  exact jsDedupRec_pairwise_firstIdx l

/- ================================================================== -/
/- C6: batch scheduler                                                 -/
/- ================================================================== -/

theorem chunksGo_flatten {α : Type} (n : Nat) (hn : 0 < n) :
    ∀ (fuel : Nat) (l : List α), l.length ≤ fuel → (chunksGo n fuel l).flatten = l := by
  intro fuel
  induction fuel with
  | zero =>
    intro l hl
    have : l = [] := List.eq_nil_of_length_eq_zero (by omega)
    subst this
    simp [chunksGo]
  | succ f ih =>
    intro l hl
    match l with
    | [] => simp [chunksGo]
    | x :: xs =>
      rw [chunksGo, List.flatten_cons,
        ih (((x :: xs)).drop n)
          (by simp only [List.length_drop, List.length_cons] at *; omega),
        List.take_append_drop]

theorem chunksGo_eq_nil_iff {α : Type} (n fuel : Nat) (l : List α) (hl : l.length ≤ fuel) :
    chunksGo n fuel l = [] ↔ l = [] := by
  match fuel, l with
  | _, [] => simp [chunksGo]
  | 0, x :: xs => simp at hl
  | f + 1, x :: xs => simp [chunksGo]

theorem chunksGo_mem_bounds {α : Type} (n : Nat) (hn : 0 < n) :
    ∀ (fuel : Nat) (l : List α), l.length ≤ fuel →
      ∀ c ∈ chunksGo n fuel l, c.length ≤ n ∧ c ≠ [] := by
  intro fuel
  induction fuel with
  | zero =>
    intro l hl
    have : l = [] := List.eq_nil_of_length_eq_zero (by omega)
    subst this
    simp [chunksGo]
  | succ f ih =>
    intro l hl
    match l with
    | [] => simp [chunksGo]
    | x :: xs =>
      rw [chunksGo]
      intro c hc
      rcases List.mem_cons.1 hc with rfl | hc
      · refine ⟨by simp only [List.length_take]; omega, ?_⟩
        have hlt : (List.take n (x :: xs)).length = min n (xs.length + 1) := by simp
        intro hnil
        rw [hnil] at hlt
        simp at hlt
        omega
      · exact ih ((x :: xs).drop n)
          (by simp only [List.length_drop, List.length_cons] at *; omega) c hc

theorem chunksGo_dropLast_length {α : Type} (n : Nat) (hn : 0 < n) :
    ∀ (fuel : Nat) (l : List α), l.length ≤ fuel →
      ∀ c ∈ (chunksGo n fuel l).dropLast, c.length = n := by
  intro fuel
  induction fuel with
  | zero =>
    intro l hl
    have : l = [] := List.eq_nil_of_length_eq_zero (by omega)
    subst this
    simp [chunksGo]
  | succ f ih =>
    intro l hl
    match l with
    | [] => simp [chunksGo]
    | x :: xs =>
      rw [chunksGo]
      have hdrop : ((x :: xs).drop n).length ≤ f := by
        simp only [List.length_drop, List.length_cons] at *
        omega
      by_cases hrest : chunksGo n f ((x :: xs).drop n) = []
      · rw [hrest]
        simp
      · rw [List.dropLast_cons_of_ne_nil hrest]
        intro c hc
        rcases List.mem_cons.1 hc with rfl | hc
        · have hd : (x :: xs).drop n ≠ [] :=
            fun h => hrest ((chunksGo_eq_nil_iff n f _ hdrop).2 h)
          have hnlt : n < (x :: xs).length := by
            by_contra hle
            exact hd (List.drop_eq_nil_of_le (by omega))
          simp only [List.length_cons] at hnlt
          simp only [List.length_take, List.length_cons]
          omega
        · exact ih ((x :: xs).drop n) hdrop c hc

/-- Claim C6: for a positive batch size, `chunkArray` returns consecutive
slices, in original order, whose concatenation is the input, every slice
except possibly the last of length exactly the batch size and every slice
non-empty of length at most the batch size; for a non-positive size it
fails with the invalid-configuration error. -/
theorem chunkArray_spec {α : Type} (items : List α) (size : Int) :
    (0 < size →
      ∃ cs, chunkArray items size = .ok cs ∧
        cs.flatten = items ∧
        (∀ c ∈ cs.dropLast, c.length = size.toNat) ∧
        (∀ c ∈ cs, c.length ≤ size.toNat ∧ c ≠ [])) ∧
    (size ≤ 0 → chunkArray items size = .error (chunkErrorMessage size)) := by
  constructor
  · intro hpos
    have hns : ¬ size ≤ 0 := by omega
    have hn : 0 < size.toNat := by omega
    refine ⟨chunksOf size.toNat items, ?_, ?_, ?_, ?_⟩
    · simp [chunkArray, hns]
    · exact chunksGo_flatten _ hn _ _ (le_refl _)
    · exact chunksGo_dropLast_length _ hn _ _ (le_refl _)
    · exact chunksGo_mem_bounds _ hn _ _ (le_refl _)
  · intro hle
    simp [chunkArray, hle]

/-- Claim C6 witness: 45 units at batch size 20 give slices of length
20, 20, 5 satisfying the specification, and size 0 is rejected. -/
theorem chunkArray_spec_witness :
    ((0 : Int) < 20 ∧
      ∃ cs, chunkArray (List.range 45) (20 : Int) = .ok cs ∧
        cs.flatten = List.range 45 ∧
        (∀ c ∈ cs.dropLast, c.length = (20 : Int).toNat) ∧
        (∀ c ∈ cs, c.length ≤ (20 : Int).toNat ∧ c ≠ [])) ∧
    ((0 : Int) ≤ 0 ∧ chunkArray (List.range 45) (0 : Int) = .error (chunkErrorMessage 0)) ∧
    (chunksOf 20 (List.range 45)).map List.length = [20, 20, 5] := by
  refine ⟨⟨by decide, (chunkArray_spec (List.range 45) 20).1 (by decide)⟩,
    ⟨by decide, (chunkArray_spec (List.range 45) 0).2 (by decide)⟩, by decide⟩

/- ================================================================== -/
/- C10: record parser                                                  -/
/- ================================================================== -/

/-- Claim C10: for every well-formed input line (one with at least the 17
fixed columns), the parser succeeds, its grouping key is tab-separated
column 4 parsed as an integer, and its status defaults to `'CORRUPTED'`
whenever the trailing column 17 is absent. -/
theorem parseMalformedLine_spec (line : String) (h : 17 ≤ (strSplitTab line).length) :
    ∃ e, parseMalformedLine line = some e ∧
      e.rcptMasterIndex = parseIntJS (strTrim ((strSplitTab line).getD 4 "")) ∧
      ((strSplitTab line).length ≤ 17 → e.status = "CORRUPTED") := by
  refine ⟨_, by rw [parseMalformedLine]; rw [if_pos h], rfl, ?_⟩
  intro h17
  show strToUpper (strTrim ((strSplitTab line).getD 17 "CORRUPTED")) = "CORRUPTED"
  rw [List.getD_eq_default _ _ h17]
  decide

/-- Claim C10 witness: a concrete 17-column line parses with grouping key
42 and defaulted status `'CORRUPTED'`. -/
theorem parseMalformedLine_spec_witness :
    (17 ≤ (strSplitTab "8\t9\tI\tM\t42\t\t\t\t\t\t\t\t\t\t\t\t7").length) ∧
    (∃ e, parseMalformedLine "8\t9\tI\tM\t42\t\t\t\t\t\t\t\t\t\t\t\t7" = some e ∧
      e.rcptMasterIndex =
        parseIntJS (strTrim ((strSplitTab "8\t9\tI\tM\t42\t\t\t\t\t\t\t\t\t\t\t\t7").getD 4 "")) ∧
      ((strSplitTab "8\t9\tI\tM\t42\t\t\t\t\t\t\t\t\t\t\t\t7").length ≤ 17 →
        e.status = "CORRUPTED")) ∧
    parseIntJS (strTrim ((strSplitTab "8\t9\tI\tM\t42\t\t\t\t\t\t\t\t\t\t\t\t7").getD 4 "")) =
      some 42 :=
  ⟨by decide, parseMalformedLine_spec _ (by decide), by decide⟩

/- ================================================================== -/
/- C5: drain-loop stall detection                                      -/
/- ================================================================== -/

/-- Claim C5: with consecutive-stall threshold 3, the observed size
sequence `[5, 5, 5, 5]` makes the drain loop abort at the 3rd unchanged
observation having opened exactly 3 items (no item is opened on the
aborting iteration and no 4th unchanged observation is made); in general
the loop aborts immediately when an observation fails to strictly decrease
with two stalls already accumulated, and a strictly decreasing observation
resets the consecutive-stall counter to zero. -/
theorem drainLoop_stall_spec :
    (submitOpenedReceiptsRun 5 [5, 5, 5, 5] =
      ({ lastCount := some 5, stalls := 3, opens := 3 }, .stalled)) ∧
    (∀ (fuel : Nat) (st : DrainState) (c : Nat) (rest : List Nat) (l : Nat),
      st.lastCount = some l → l ≤ c → 0 < c → st.stalls = 2 →
      drainLoop 3 (fuel + 1) st (c :: rest) = ({ st with stalls := 3 }, .stalled)) ∧
    (∀ (fuel : Nat) (st : DrainState) (c : Nat) (rest : List Nat) (l : Nat),
      st.lastCount = some l → c < l → 0 < c →
      drainLoop 3 (fuel + 1) st (c :: rest) =
        drainLoop 3 fuel { lastCount := some c, stalls := 0, opens := st.opens + 1 } rest) := by
  refine ⟨by decide, ?_, ?_⟩
  · intro fuel st c rest l hlast hle hc hst
    rw [drainLoop]
    rw [if_neg (by omega), hlast]
    simp only [decide_eq_true_eq, if_pos hle, hst]
    simp
  · intro fuel st c rest l hlast hlt hc
    rw [drainLoop]
    rw [if_neg (by omega), hlast]
    simp only [decide_eq_true_eq]
    rw [if_neg (by omega)]

/-- Claim C5 witness: the general stall-abort and reset cases at concrete
inputs. -/
theorem drainLoop_stall_spec_witness :
    (drainLoop 3 1 ⟨some 5, 2, 7⟩ [5, 9] = (⟨some 5, 3, 7⟩, .stalled)) ∧
    (drainLoop 3 1 ⟨some 9, 2, 7⟩ [5] =
      drainLoop 3 0 ⟨some 5, 0, 8⟩ []) := by
  have h1 := (drainLoop_stall_spec.2.1) 0 ⟨some 5, 2, 7⟩ 5 [9] 5 rfl (by decide) (by decide) rfl
  have h2 := (drainLoop_stall_spec.2.2) 0 ⟨some 9, 2, 7⟩ 5 [] 9 rfl (by decide) (by decide)
  exact ⟨h1, h2⟩

/- ================================================================== -/
/- C1: phase-1 fatal/non-fatal classification                          -/
/- ================================================================== -/

theorem lStartsWith_subset {α : Type} [DecidableEq α] :
    ∀ (pat l : List α), lStartsWith pat l = true → ∀ c ∈ pat, c ∈ l := by
  intro pat
  induction pat with
  | nil => simp
  | cons p ps ih =>
    intro l h c hc
    match l with
    | [] => simp [lStartsWith] at h
    | x :: xs =>
      rw [lStartsWith, Bool.and_eq_true, decide_eq_true_eq] at h
      rcases List.mem_cons.1 hc with rfl | hc
      · exact h.1 ▸ List.mem_cons_self _ _
      · exact List.mem_cons_of_mem _ (ih xs h.2 c hc)

theorem lContainsSeq_subset {α : Type} [DecidableEq α] :
    ∀ (l pat : List α), lContainsSeq pat l = true → ∀ c ∈ pat, c ∈ l := by
  intro l
  induction l with
  | nil =>
    intro pat h c hc
    match pat with
    | [] => simp at hc
    | p :: ps => simp [lContainsSeq, lStartsWith] at h
  | cons x xs ih =>
    intro pat h c hc
    rw [lContainsSeq, Bool.or_eq_true] at h
    rcases h with h | h
    · exact lStartsWith_subset pat (x :: xs) h c hc
    · exact List.mem_cons_of_mem _ (ih pat h c hc)

theorem digitChar_isDigit (k : Nat) (hk : k < 10) : (Nat.digitChar k).isDigit = true := by
  interval_cases k <;> decide

theorem toDigitsCore_digits :
    ∀ (fuel n : Nat) (acc : List Char), (∀ c ∈ acc, c.isDigit = true) →
      ∀ c ∈ Nat.toDigitsCore 10 fuel n acc, c.isDigit = true := by
  intro fuel
  induction fuel with
  | zero => intro n acc hacc; simpa [Nat.toDigitsCore] using hacc
  | succ f ih =>
    intro n acc hacc c hc
    rw [Nat.toDigitsCore] at hc
    have hd : (Nat.digitChar (n % 10)).isDigit = true :=
      digitChar_isDigit _ (Nat.mod_lt _ (by norm_num))
    by_cases hz : n / 10 = 0
    · rw [if_pos hz] at hc
      rcases List.mem_cons.1 hc with rfl | hc
      · exact hd
      · exact hacc c hc
    · rw [if_neg hz] at hc
      refine ih (n / 10) (Nat.digitChar (n % 10) :: acc) ?_ c hc
      intro d hdm
      rcases List.mem_cons.1 hdm with rfl | hdm
      · exact hd
      · exact hacc d hdm

theorem natRepr_digits (n : Nat) : ∀ c ∈ (Nat.repr n).data, c.isDigit = true := by
  intro c hc
  have : (Nat.repr n).data = Nat.toDigitsCore 10 (n + 1) n [] := rfl
  rw [this] at hc
  exact toDigitsCore_digits (n + 1) n [] (by simp) c hc

theorem jsNumToString_no_dot (v : Option Int) : '.' ∉ (jsNumToString v).data := by
  match v with
  | none => decide
  | some (Int.ofNat m) =>
    intro h
    have := natRepr_digits m '.' h
    simp at this
  | some (Int.negSucc m) =>
    intro h
    have hdata : (jsNumToString (some (Int.negSucc m))).data =
        '-' :: (Nat.repr (m + 1)).data := rfl
    rw [hdata] at h
    rcases List.mem_cons.1 h with h | h
    · simp at h
    · have := natRepr_digits (m + 1) '.' h
      simp at this

theorem strData_append (s t : String) : (s ++ t).data = s.data ++ t.data := by
  cases s
  cases t
  rfl

theorem submitTimeoutMessage_phase1_no_dot (r : ReceiptGroup) :
    '.' ∉ (submitTimeoutMessage (phase1Label r)).data := by
  intro h
  rw [submitTimeoutMessage, phase1Label, strData_append, strData_append,
    strData_append] at h
  simp only [List.mem_append] at h
  rcases h with ((h | h | h) | h)
  · simp at h
  · revert h
    decide
  · exact jsNumToString_no_dot _ h
  · revert h
    decide

/-- The blocking phrase contains a full stop, while the timeout message for
any phase-1 receipt label contains none, so the timeout message never
matches the blocking phrase. -/
theorem submitTimeoutMessage_not_blocked (r : ReceiptGroup) :
    strContains (submitTimeoutMessage (phase1Label r)) blockedPhrase = false := by
  by_contra h
  have hT : strContains (submitTimeoutMessage (phase1Label r)) blockedPhrase = true := by
    revert h
    cases strContains (submitTimeoutMessage (phase1Label r)) blockedPhrase <;> simp
  have hdot : '.' ∈ blockedPhrase.data := by decide
  exact submitTimeoutMessage_phase1_no_dot r
    (lContainsSeq_subset _ _ hT '.' hdot)

/-- When no polling observation shows the `<AUTO>` sentinel and no popup
ever appears, `waitForSubmitResult` returns the generic timeout failure. -/
theorem waitForSubmitResult_timeout (label : String) :
    ∀ (trace : List SubmitObs),
      (∀ o ∈ trace, obsIsAuto o.idxFirst = false ∧ o.popup = none) →
      waitForSubmitResult label trace =
        { success := false, popupMessage := some (submitTimeoutMessage label) } := by
  intro trace
  induction trace with
  | nil => intro _; rfl
  | cons o rest ih =>
    intro h
    have ho := h o (List.mem_cons_self _ _)
    rw [waitForSubmitResult, ho.1]
    simp only [Bool.false_eq_true, if_false]
    rw [ho.2]
    exact ih (fun o' ho' => h o' (List.mem_cons_of_mem _ ho'))

/-- Claim C1: whenever phase 1's submit attempt for a unit fails with a
notification text containing the exact blocking phrase, `processReceipt`
records the unit to the failure ledger, cancels the opened row, and the
unit does not survive phase 1 (it is excluded from `successfulReceipts`,
phase 2's input); for any other failure text the notification is merely
dismissed and the unit survives; and when the deadline elapses with
neither the `<AUTO>` sentinel nor a notification, the result is the
generic timeout failure, which does not contain the blocking phrase and
therefore also routes to dismiss-and-survive. -/
theorem phase1_classification_spec (batch : List ReceiptGroup)
    (traces : ReceiptGroup → List SubmitObs) (r : ReceiptGroup) (msg : String) :
    (waitForSubmitResult (phase1Label r) (traces r) =
        { success := false, popupMessage := some msg } →
      ((strContains msg blockedPhrase = true →
        processReceiptOutcome r (traces r) =
          { survived := false, ledgered := true, cancelled := true, dismissed := true } ∧
        r ∉ phase1Survivors batch traces) ∧
      (strContains msg blockedPhrase = false →
        processReceiptOutcome r (traces r) =
          { survived := true, ledgered := false, cancelled := false, dismissed := true } ∧
        (r ∈ batch → r ∈ phase1Survivors batch traces)))) ∧
    ((∀ o ∈ traces r, obsIsAuto o.idxFirst = false ∧ o.popup = none) →
      waitForSubmitResult (phase1Label r) (traces r) =
        { success := false, popupMessage := some (submitTimeoutMessage (phase1Label r)) } ∧
      strContains (submitTimeoutMessage (phase1Label r)) blockedPhrase = false ∧
      processReceiptOutcome r (traces r) =
        { survived := true, ledgered := false, cancelled := false, dismissed := true } ∧
      (r ∈ batch → r ∈ phase1Survivors batch traces)) := by
  constructor
  · intro hres
    constructor
    · intro hcont
      have houtcome : processReceiptOutcome r (traces r) =
          { survived := false, ledgered := true, cancelled := true, dismissed := true } := by
        rw [processReceiptOutcome, hres, classifyPhase1]
        simp [hcont]
      refine ⟨houtcome, fun hmem => ?_⟩
      have := (List.mem_filter.1 hmem).2
      rw [houtcome] at this
      simp at this
    · intro hcont
      have houtcome : processReceiptOutcome r (traces r) =
          { survived := true, ledgered := false, cancelled := false, dismissed := true } := by
        rw [processReceiptOutcome, hres, classifyPhase1]
        simp [hcont]
      refine ⟨houtcome, fun hmem => List.mem_filter.2 ⟨hmem, ?_⟩⟩
      rw [houtcome]
  · intro hobs
    have hres := waitForSubmitResult_timeout (phase1Label r) (traces r) hobs
    have hnotb := submitTimeoutMessage_not_blocked r
    have houtcome : processReceiptOutcome r (traces r) =
        { survived := true, ledgered := false, cancelled := false, dismissed := true } := by
      rw [processReceiptOutcome, hres, classifyPhase1]
      simp [hnotb]
    refine ⟨hres, hnotb, houtcome, fun hmem => List.mem_filter.2 ⟨hmem, ?_⟩⟩
    rw [houtcome]

/-- The receipt group used by the C1 witness. -/
def c1WitnessGroup : ReceiptGroup :=
  { rcptMasterIndex := some 7, entries := [], invNumbers := [],
    invMasterIndices := [], rawLines := [] }

/-- A submit-result trace whose single iteration shows the blocking popup. -/
def c1FatalTrace : List SubmitObs :=
  [{ idxFirst := none, popup := some blockedPhrase, idxSecond := none }]

/-- Claim C1 witness: a popup carrying the blocking phrase routes to
ledger, cancel and exclusion from phase 2's input; an exhausted deadline
with no popup routes to the timeout failure, dismissal, and survival. -/
theorem phase1_classification_spec_witness :
    (processReceiptOutcome c1WitnessGroup c1FatalTrace =
        { survived := false, ledgered := true, cancelled := true, dismissed := true } ∧
      c1WitnessGroup ∉ phase1Survivors [c1WitnessGroup] (fun _ => c1FatalTrace)) ∧
    (waitForSubmitResult (phase1Label c1WitnessGroup) [] =
        { success := false,
          popupMessage := some (submitTimeoutMessage (phase1Label c1WitnessGroup)) } ∧
      strContains (submitTimeoutMessage (phase1Label c1WitnessGroup)) blockedPhrase = false ∧
      processReceiptOutcome c1WitnessGroup [] =
        { survived := true, ledgered := false, cancelled := false, dismissed := true } ∧
      (c1WitnessGroup ∈ [c1WitnessGroup] →
        c1WitnessGroup ∈ phase1Survivors [c1WitnessGroup] (fun _ => []))) := by
  have h1 := ((phase1_classification_spec [c1WitnessGroup] (fun _ => c1FatalTrace)
    c1WitnessGroup blockedPhrase).1 (by decide)).1 (by decide)
  have h2 := (phase1_classification_spec [c1WitnessGroup] (fun _ => ([] : List SubmitObs))
    c1WitnessGroup "").2 (by intro o ho; simp at ho)
  exact ⟨h1, ⟨h2.1, h2.2.1, h2.2.2.1, h2.2.2.2⟩⟩

/- ================================================================== -/
/- C7: unit grouper                                                    -/
/- ================================================================== -/

/-- Claim C7: `groupByReceipt` puts every entry into some unit; each unit
holds exactly the input entries bearing its grouping key, so two entries
with the same key land in the same single unit (units with a common entry
key coincide); unit order is the order of first appearance of each
grouping key in the input; and each unit's distinct-label list is the
first-seen-ordered deduplication of its entries' labels (so labels
`"A", "B", "A"` yield `["A", "B"]`). -/
theorem groupByReceipt_spec (entries : List MalformedEntry) :
    (∀ e ∈ entries, ∃ g ∈ groupByReceipt entries, e ∈ g.entries) ∧
    (∀ g ∈ groupByReceipt entries, ∀ e,
      (e ∈ g.entries ↔ (e ∈ entries ∧ e.rcptMasterIndex = g.rcptMasterIndex))) ∧
    ((groupByReceipt entries).map (·.rcptMasterIndex)).Nodup ∧
    (∀ g g', g ∈ groupByReceipt entries → g' ∈ groupByReceipt entries →
      ∀ e e', e ∈ g.entries → e' ∈ g'.entries →
      e.rcptMasterIndex = e'.rcptMasterIndex → g = g') ∧
    ((groupByReceipt entries).map (·.rcptMasterIndex)).Pairwise
      (fun a b => firstIdx (entries.map (·.rcptMasterIndex)) a <
        firstIdx (entries.map (·.rcptMasterIndex)) b) ∧
    (∀ g ∈ groupByReceipt entries,
      g.invNumbers = jsDedup (g.entries.map (·.invNumber)) ∧
      g.invNumbers.Nodup ∧
      (∀ v, v ∈ g.invNumbers ↔ v ∈ g.entries.map (·.invNumber)) ∧
      g.invNumbers.Pairwise
        (fun a b => firstIdx (g.entries.map (·.invNumber)) a <
          firstIdx (g.entries.map (·.invNumber)) b)) := by
  have hmap : (groupByReceipt entries).map (·.rcptMasterIndex) =
      jsDedup (entries.map (·.rcptMasterIndex)) := by
    rw [groupByReceipt, List.map_map]
    apply List.map_id''
    intro x
    rfl
  refine ⟨?_, ?_, ?_, ?_, ?_, ?_⟩
  · intro e he
    have hk : e.rcptMasterIndex ∈ jsDedup (entries.map (·.rcptMasterIndex)) :=
      mem_jsDedup.2 (List.mem_map.2 ⟨e, he, rfl⟩)
    rw [groupByReceipt]
    refine ⟨_, List.mem_map.2 ⟨e.rcptMasterIndex, hk, rfl⟩, ?_⟩
    show e ∈ entries.filter (fun e' => decide (e'.rcptMasterIndex = e.rcptMasterIndex))
    exact List.mem_filter.2 ⟨he, by simp⟩
  · intro g hg e
    rw [groupByReceipt] at hg
    obtain ⟨k, hk, rfl⟩ := List.mem_map.1 hg
    show e ∈ entries.filter (fun e' => decide (e'.rcptMasterIndex = k)) ↔ _
    simp only [List.mem_filter, decide_eq_true_eq]
  · rw [hmap]
    exact jsDedup_nodup _
  · intro g g' hg hg' e e' he he' hkey
    rw [groupByReceipt] at hg hg'
    obtain ⟨k, hk, rfl⟩ := List.mem_map.1 hg
    obtain ⟨k', hk', rfl⟩ := List.mem_map.1 hg'
    have h1 : e.rcptMasterIndex = k := by
      have := (List.mem_filter.1 he).2
      simpa using this
    have h2 : e'.rcptMasterIndex = k' := by
      have := (List.mem_filter.1 he').2
      simpa using this
    have : k = k' := by rw [← h1, ← h2, hkey]
    subst this
    rfl
  · rw [hmap]
    exact jsDedup_pairwise_firstIdx _
  · intro g hg
    rw [groupByReceipt] at hg
    obtain ⟨k, hk, rfl⟩ := List.mem_map.1 hg
    have hinv : (∀ v, v ∈ jsDedup ((entries.filter
        (fun e => decide (e.rcptMasterIndex = k))).map (·.invNumber)) ↔
        v ∈ (entries.filter (fun e => decide (e.rcptMasterIndex = k))).map (·.invNumber)) :=
      fun v => mem_jsDedup
    exact ⟨rfl, jsDedup_nodup _, hinv, jsDedup_pairwise_firstIdx _⟩

/-- A three-entry input for the C7 witness: one grouping key, labels
`"A", "B", "A"`. -/
def c7Entry (lbl : String) : MalformedEntry :=
  { armIndex := some 1, invMasterIndex := some 2, invNumber := lbl,
    rcptMasterIndex := some 5, difference := "0", status := "CORRUPTED",
    rawLine := lbl }

/-- Claim C7 witness: on the concrete input with labels `"A", "B", "A"`
under one grouping key, the grouper produces one unit whose distinct-label
list is `["A", "B"]`, and the general theorem's clauses hold at that
input. -/
theorem groupByReceipt_spec_witness :
    (∃ g ∈ groupByReceipt [c7Entry "A", c7Entry "B", c7Entry "A"],
      c7Entry "A" ∈ g.entries) ∧
    (groupByReceipt [c7Entry "A", c7Entry "B", c7Entry "A"]).map (·.invNumbers) =
      [["A", "B"]] := by
  refine ⟨(groupByReceipt_spec _).1 (c7Entry "A") (by simp), by decide⟩

/- ================================================================== -/
/- C4: phase-2 runbook parameter                                       -/
/- ================================================================== -/

theorem chunkArray_ok_inv {α : Type} {items : List α} {size : Int}
    {bs : List (List α)} (h : chunkArray items size = .ok bs) :
    0 < size ∧ bs = chunksOf size.toNat items := by
  by_cases hle : size ≤ 0
  · rw [chunkArray, if_pos hle] at h
    cases h
  · rw [chunkArray, if_neg hle] at h
    cases h
    exact ⟨by omega, rfl⟩

theorem mem_batch_of_chunk {α : Type} {items : List α} {size : Int}
    {bs : List (List α)} (h : chunkArray items size = .ok bs)
    {batch : List α} (hb : batch ∈ bs) {g : α} (hg : g ∈ batch) : g ∈ items := by
  obtain ⟨hpos, rfl⟩ := chunkArray_ok_inv h
  have hfl : g ∈ (chunksOf size.toNat items).flatten := List.mem_flatten.2 ⟨batch, hb, hg⟩
  rw [chunksOf] at hfl
  rwa [chunksGo_flatten size.toNat (by omega) items.length items (le_refl _)] at hfl

/-- Claim C4: for each batch, phase 2's parameter set is the deduplicated
union of the `invMasterIndices` of exactly the units surviving phase 1 of
that batch; the runbook is triggered with those values joined by commas,
and skipped (no-op) when the set is empty; and every member of the set is
the `invMasterIndex` of some `'CORRUPTED'`-status entry of a surviving
unit — a reference carried only by already-resolved entries never appears. -/
theorem phase2_parameter_spec (entries : List MalformedEntry) (size : Int)
    (bs : List (List ReceiptGroup))
    (hbs : chunkArray (groupByReceipt entries) size = .ok bs)
    (batch : List ReceiptGroup) (hb : batch ∈ bs)
    (traces : ReceiptGroup → List SubmitObs) :
    (∀ m, m ∈ batchInvMasterIndices (phase1Survivors batch traces) ↔
      ∃ g ∈ phase1Survivors batch traces, m ∈ g.invMasterIndices) ∧
    (batchInvMasterIndices (phase1Survivors batch traces)).Nodup ∧
    (batchInvMasterIndices (phase1Survivors batch traces) = [] →
      phase2Action (phase1Survivors batch traces) = .noop) ∧
    (batchInvMasterIndices (phase1Survivors batch traces) ≠ [] →
      phase2Action (phase1Survivors batch traces) =
        .trigger (joinSep ","
          ((batchInvMasterIndices (phase1Survivors batch traces)).map jsNumToString))) ∧
    (∀ m ∈ batchInvMasterIndices (phase1Survivors batch traces),
      ∃ g, g ∈ phase1Survivors batch traces ∧ g ∈ batch ∧
        ∃ e ∈ g.entries, e.status = "CORRUPTED" ∧ e.invMasterIndex = m) := by
  refine ⟨?_, jsDedup_nodup _, ?_, ?_, ?_⟩
  · intro m
    rw [batchInvMasterIndices, mem_jsDedup, List.mem_flatMap]
  · intro hnil
    rw [phase2Action, if_neg (by simp [hnil])]
  · intro hne
    have hlen : 0 < (batchInvMasterIndices (phase1Survivors batch traces)).length :=
      List.length_pos.2 hne
    rw [phase2Action, if_pos hlen]
    rfl
  · intro m hm
    rw [batchInvMasterIndices, mem_jsDedup, List.mem_flatMap] at hm
    obtain ⟨g, hgs, hmg⟩ := hm
    have hgb : g ∈ batch := List.mem_of_mem_filter hgs
    have hgrp : g ∈ groupByReceipt entries := mem_batch_of_chunk hbs hb hgb
    rw [groupByReceipt] at hgrp
    obtain ⟨k, hk, rfl⟩ := List.mem_map.1 hgrp
    have hmg' : m ∈ jsDedup (((entries.filter
        (fun e => decide (e.rcptMasterIndex = k))).filter
        (fun e => decide (e.status = "CORRUPTED"))).map (·.invMasterIndex)) := hmg
    rw [mem_jsDedup, List.mem_map] at hmg'
    obtain ⟨e, he, rfl⟩ := hmg'
    have he1 := List.mem_filter.1 he
    refine ⟨_, hgs, hgb, e, he1.1, by simpa using he1.2, rfl⟩

/-- Entries for the C4 witness: grouping key 5 has one `'CORRUPTED'` entry
with reference 101 and one `'RESOLVED'` entry with reference 202. -/
def c4Entries : List MalformedEntry :=
  [{ armIndex := some 1, invMasterIndex := some 101, invNumber := "A",
     rcptMasterIndex := some 5, difference := "0", status := "CORRUPTED",
     rawLine := "a" },
   { armIndex := some 2, invMasterIndex := some 202, invNumber := "B",
     rcptMasterIndex := some 5, difference := "0", status := "RESOLVED",
     rawLine := "b" }]

/-- Claim C4 witness: with one surviving unit holding a `'CORRUPTED'`
reference 101 and a `'RESOLVED'` reference 202, the collected parameter is
`[101]`, joined as `"101"` and passed to the trigger; 202 never appears;
and an empty collection is a no-op. -/
theorem phase2_parameter_spec_witness :
    ((∀ m, m ∈ batchInvMasterIndices
        (phase1Survivors (groupByReceipt c4Entries) (fun _ => [])) ↔
      ∃ g ∈ phase1Survivors (groupByReceipt c4Entries) (fun _ => []),
        m ∈ g.invMasterIndices) ∧
    (batchInvMasterIndices
      (phase1Survivors (groupByReceipt c4Entries) (fun _ => []))).Nodup ∧
    (batchInvMasterIndices (phase1Survivors (groupByReceipt c4Entries) (fun _ => [])) = [] →
      phase2Action (phase1Survivors (groupByReceipt c4Entries) (fun _ => [])) = .noop) ∧
    (batchInvMasterIndices (phase1Survivors (groupByReceipt c4Entries) (fun _ => [])) ≠ [] →
      phase2Action (phase1Survivors (groupByReceipt c4Entries) (fun _ => [])) =
        .trigger (joinSep ","
          ((batchInvMasterIndices
            (phase1Survivors (groupByReceipt c4Entries) (fun _ => []))).map jsNumToString))) ∧
    (∀ m ∈ batchInvMasterIndices (phase1Survivors (groupByReceipt c4Entries) (fun _ => [])),
      ∃ g, g ∈ phase1Survivors (groupByReceipt c4Entries) (fun _ => []) ∧
        g ∈ groupByReceipt c4Entries ∧
        ∃ e ∈ g.entries, e.status = "CORRUPTED" ∧ e.invMasterIndex = m)) ∧
    batchInvMasterIndices (phase1Survivors (groupByReceipt c4Entries) (fun _ => [])) =
      [some 101] ∧
    some 202 ∉ batchInvMasterIndices
      (phase1Survivors (groupByReceipt c4Entries) (fun _ => [])) ∧
    phase2Action (phase1Survivors (groupByReceipt c4Entries) (fun _ => [])) =
      .trigger "101" ∧
    phase2Action [] = .noop := by
  refine ⟨phase2_parameter_spec c4Entries 20 _ rfl (groupByReceipt c4Entries)
    (by decide) (fun _ => []), by decide, by decide, by decide, by decide⟩

/- ================================================================== -/
/- C9: ledger aggregation                                              -/
/- ================================================================== -/

theorem fmt1Key_none_of_fmt2Key {line : String} {k : String}
    (h : fmt2Key line = some k) : fmt1Key line = none := by
  rw [fmt2Key] at h
  by_cases hlen : 5 ≤ (line.data.takeWhile (fun c => c.isDigit)).length
  · match hdata : line.data with
    | [] =>
      rw [hdata] at hlen
      simp [List.takeWhile] at hlen
    | c :: cs =>
      rw [hdata] at hlen
      by_cases hdig : c.isDigit
      · have hne : c ≠ '#' := by
          intro hc
          rw [hc] at hdig
          simp at hdig
        rw [fmt1Key, hdata]
        rw [if_neg ?_]
        show lStartsWith ('#' :: "# Receipt ".data.tail) (c :: cs) ≠ true
        rw [lStartsWith]
        intro hcontra
        rw [Bool.and_eq_true, decide_eq_true_eq] at hcontra
        exact hne hcontra.1.symm
      · rw [List.takeWhile_cons_of_neg (by simpa using hdig)] at hlen
        simp at hlen
  · rw [if_neg hlen] at h
    cases h

theorem mem_lineKeys_of_fmt1 {line k : String} (h : fmt1Key line = some k) :
    k ∈ lineKeys line := by
  rw [lineKeys, h]
  exact List.mem_singleton.2 rfl

theorem mem_lineKeys_of_fmt2 {line k : String} (ht : hasTab line = false)
    (h : fmt2Key line = some k) : k ∈ lineKeys line := by
  rw [lineKeys, fmt1Key_none_of_fmt2Key h, h, ht]
  simp

/-- Claim C9: the blacklist aggregator emits a duplicate-free list, sorted
ascending by numeric value, whose members are exactly the keys collected
from the files' lines — in particular it contains the key of every line in
the newer `# Receipt <key>` header format and of every (tab-free) line in
the legacy bare-number-prefixed header format, with raw tab-separated data
lines tolerated arbitrarily in between. -/
theorem aggregateBlacklists_spec (files : List (List String)) :
    (aggregateBlacklists files).Nodup ∧
    (aggregateBlacklists files).Sorted (fun a b => strNum a ≤ strNum b) ∧
    (∀ k : String, k ∈ aggregateBlacklists files ↔
      ∃ line ∈ files.flatten, k ∈ lineKeys line) ∧
    (∀ line ∈ files.flatten,
      (∀ k, fmt1Key line = some k → k ∈ aggregateBlacklists files) ∧
      (hasTab line = false →
        ∀ k, fmt2Key line = some k → k ∈ aggregateBlacklists files)) := by
  have hperm := List.perm_insertionSort
    (fun a b => strNum a ≤ strNum b) (jsDedup ((files.flatten).flatMap lineKeys))
  have hmem : ∀ k : String, k ∈ aggregateBlacklists files ↔
      ∃ line ∈ files.flatten, k ∈ lineKeys line := by
    intro k
    rw [aggregateBlacklists]
    rw [hperm.mem_iff, mem_jsDedup, List.mem_flatMap]
  refine ⟨?_, ?_, hmem, ?_⟩
  · rw [aggregateBlacklists]
    exact hperm.nodup_iff.2 (jsDedup_nodup _)
  · rw [aggregateBlacklists]
    haveI : IsTotal String (fun a b => strNum a ≤ strNum b) := ⟨fun a b => Nat.le_total _ _⟩
    haveI : IsTrans String (fun a b => strNum a ≤ strNum b) :=
      ⟨fun _ _ _ hab hbc => le_trans hab hbc⟩
    exact List.sorted_insertionSort _ _
  · intro line hline
    constructor
    · intro k hk
      exact (hmem k).2 ⟨line, hline, mem_lineKeys_of_fmt1 hk⟩
    · intro ht k hk
      exact (hmem k).2 ⟨line, hline, mem_lineKeys_of_fmt2 ht hk⟩

/-- The ledger files used by the C9 witness: a newer-format header, a
legacy bare-number header, and a raw tab-separated data line. -/
def c9Files : List (List String) :=
  [["# Receipt 77 bad matter", "30000 blocked for reason"],
   ["9\t8\tI\tM\t500\tz"]]

/-- Claim C9 witness: on files mixing both header formats and a raw data
line, the aggregator output is `["77", "500", "30000"]` — numerically
sorted, duplicate-free, containing the keys of both header lines. -/
theorem aggregateBlacklists_spec_witness :
    (aggregateBlacklists c9Files).Nodup ∧
    ("77" ∈ aggregateBlacklists c9Files) ∧
    ("30000" ∈ aggregateBlacklists c9Files) ∧
    aggregateBlacklists c9Files = ["77", "500", "30000"] := by
  refine ⟨(aggregateBlacklists_spec c9Files).1, ?_, ?_, by decide⟩
  · exact ((aggregateBlacklists_spec c9Files).2.2.2 "# Receipt 77 bad matter"
      (by decide)).1 "77" (by decide)
  · exact ((aggregateBlacklists_spec c9Files).2.2.2 "30000 blocked for reason"
      (by decide)).2 (by decide) "30000" (by decide)

/- ================================================================== -/
/- Union-find correctness (splitData.js `find` / `union`)              -/
/- ================================================================== -/

/-- `r` is the root of `x`'s parent chain in parent map `p`. -/
def UFRoot {α : Type} (p : α → α) (x r : α) : Prop :=
  (∃ k, p^[k] x = r) ∧ p r = r

/-- A parent map is measured when some rank function strictly decreases
along every non-trivial parent edge (this is the acyclicity invariant). -/
def Measured {α : Type} (p : α → α) (m : α → Nat) : Prop :=
  ∀ x, p x ≠ x → m (p x) < m x

/-- Two elements have a common root. -/
def SameRoot {α : Type} (p : α → α) (y z : α) : Prop :=
  ∃ ρ, UFRoot p y ρ ∧ UFRoot p z ρ

/-- The union-find invariant over a key universe `S`: the parent map moves
only keys of `S` and into `S`, and is acyclic. -/
def UFInv {α : Type} (S : Finset α) (p : α → α) : Prop :=
  (∀ y, p y ≠ y → y ∈ S ∧ p y ∈ S) ∧ ∃ m, Measured p m

theorem ufRoot_self {α : Type} {p : α → α} {x : α} (h : p x = x) : UFRoot p x x :=
  ⟨⟨0, rfl⟩, h⟩

theorem ufRoot_unique {α : Type} {p : α → α} {x r r' : α}
    (h : UFRoot p x r) (h' : UFRoot p x r') : r = r' := by
  obtain ⟨⟨k, hk⟩, hr⟩ := h
  obtain ⟨⟨k', hk'⟩, hr'⟩ := h'
  rcases Nat.le_total k k' with hle | hle
  · obtain ⟨d, rfl⟩ := Nat.le.dest hle
    rw [Nat.add_comm, Function.iterate_add_apply, hk, Function.iterate_fixed hr] at hk'
    exact hk'
  · obtain ⟨d, rfl⟩ := Nat.le.dest hle
    rw [Nat.add_comm, Function.iterate_add_apply, hk', Function.iterate_fixed hr'] at hk
    exact hk.symm

theorem ufRoot_of_parent {α : Type} {p : α → α} {x r : α}
    (h : UFRoot p (p x) r) : UFRoot p x r := by
  obtain ⟨⟨k, hk⟩, hr⟩ := h
  exact ⟨⟨k + 1, by rw [Function.iterate_succ_apply]; exact hk⟩, hr⟩

theorem ufRoot_parent {α : Type} {p : α → α} {x r : α}
    (h : UFRoot p x r) : UFRoot p (p x) r := by
  obtain ⟨⟨k, hk⟩, hr⟩ := h
  match k, hk with
  | 0, hk =>
    cases hk
    exact ⟨⟨0, hr⟩, hr⟩
  | k + 1, hk =>
    rw [Function.iterate_succ_apply] at hk
    exact ⟨⟨k, hk⟩, hr⟩

theorem ufRoot_exists {α : Type} {p : α → α} {m : α → Nat} (hm : Measured p m) :
    ∀ x, ∃ r, UFRoot p x r := by
  have key : ∀ (n : Nat) (x : α), m x ≤ n → ∃ r, UFRoot p x r := by
    intro n
    induction n with
    | zero =>
      intro x hx
      by_cases hroot : p x = x
      · exact ⟨x, ufRoot_self hroot⟩
      · have := hm x hroot
        omega
    | succ n ih =>
      intro x hx
      by_cases hroot : p x = x
      · exact ⟨x, ufRoot_self hroot⟩
      · have hlt := hm x hroot
        obtain ⟨r, hr⟩ := ih (p x) (by omega)
        exact ⟨r, ufRoot_of_parent hr⟩
  exact fun x => key (m x) x (le_refl _)

/-- `n` is the exact parent-chain length from `x` to its root. -/
def HgtIs {α : Type} (p : α → α) (x : α) (n : Nat) : Prop :=
  p (p^[n] x) = p^[n] x ∧ ∀ j, j < n → p (p^[j] x) ≠ p^[j] x

theorem hgtIs_exists {α : Type} {p : α → α} {m : α → Nat} (hm : Measured p m) :
    ∀ x, ∃ n, HgtIs p x n := by
  have key : ∀ (n : Nat) (x : α), m x ≤ n → ∃ h, HgtIs p x h := by
    intro n
    induction n with
    | zero =>
      intro x hx
      by_cases hroot : p x = x
      · exact ⟨0, hroot, by omega⟩
      · have := hm x hroot
        omega
    | succ n ih =>
      intro x hx
      by_cases hroot : p x = x
      · exact ⟨0, hroot, by omega⟩
      · obtain ⟨h, hh1, hh2⟩ := ih (p x) (by have := hm x hroot; omega)
        refine ⟨h + 1, ?_, ?_⟩
        · rw [Function.iterate_succ_apply]
          exact hh1
        · intro j hj
          match j with
          | 0 => exact hroot
          | j + 1 =>
            rw [Function.iterate_succ_apply]
            exact hh2 j (by omega)
  exact fun x => key (m x) x (le_refl _)

theorem hgtIs_unique {α : Type} {p : α → α} {x : α} {n n' : Nat}
    (h : HgtIs p x n) (h' : HgtIs p x n') : n = n' := by
  by_contra hne
  rcases Nat.lt_or_ge n n' with hlt | hge
  · exact h'.2 n hlt h.1
  · exact h.2 n' (by omega) h'.1

theorem hgtIs_parent {α : Type} {p : α → α} {x : α} {n : Nat}
    (hroot : p x ≠ x) (h : HgtIs p x n) : ∃ n', n = n' + 1 ∧ HgtIs p (p x) n' := by
  match n, h with
  | 0, h => exact absurd h.1 hroot
  | n + 1, h =>
    refine ⟨n, rfl, ?_, ?_⟩
    · rw [← Function.iterate_succ_apply]
      exact h.1
    · intro j hj
      rw [← Function.iterate_succ_apply]
      exact h.2 (j + 1) (by omega)

theorem hgtIs_zero_iff {α : Type} {p : α → α} {x : α} :
    HgtIs p x 0 ↔ p x = x := by
  constructor
  · intro h
    exact h.1
  · intro h
    exact ⟨h, by omega⟩

theorem hgtIs_root {α : Type} {p : α → α} {x : α} {n : Nat} (h : HgtIs p x n) :
    UFRoot p x (p^[n] x) :=
  ⟨⟨n, rfl⟩, h.1⟩

theorem chain_mem {α : Type} {S : Finset α} {p : α → α}
    (hsupp : ∀ y, p y ≠ y → y ∈ S ∧ p y ∈ S) {x : α} (hx : x ∈ S) :
    ∀ k, p^[k] x ∈ S := by
  intro k
  induction k with
  | zero => exact hx
  | succ k ih =>
    rw [Function.iterate_succ_apply']
    by_cases hroot : p (p^[k] x) = p^[k] x
    · rw [hroot]
      exact ih
    · exact (hsupp _ hroot).2

theorem hgtIs_iterate {α : Type} {p : α → α} {x : α} {n : Nat} (h : HgtIs p x n) :
    ∀ i, i ≤ n → HgtIs p (p^[i] x) (n - i) := by
  intro i
  induction i with
  | zero => intro _; simpa using h
  | succ i ih =>
    intro hi
    have hprev := ih (by omega)
    have hroot : p (p^[i] x) ≠ p^[i] x := h.2 i (by omega)
    obtain ⟨n', hn', hh⟩ := hgtIs_parent hroot hprev
    have : p (p^[i] x) = p^[i + 1] x := (Function.iterate_succ_apply' p i x).symm
    rw [this] at hh
    have : n - (i + 1) = n' := by omega
    rw [this]
    exact hh

theorem hgt_le_card {α : Type} [DecidableEq α] {S : Finset α} {p : α → α}
    (hsupp : ∀ y, p y ≠ y → y ∈ S ∧ p y ∈ S) {x : α} {n : Nat} (h : HgtIs p x n) :
    n ≤ S.card := by
  have hmaps : ∀ i ∈ Finset.range n, p^[i] x ∈ S := by
    intro i hi
    rw [Finset.mem_range] at hi
    exact (hsupp _ (h.2 i hi)).1
  have hinj : Set.InjOn (fun i => p^[i] x) (Finset.range n) := by
    intro i hi j hj hij
    simp only [Finset.coe_range, Set.mem_Iio] at hi hj
    have h1 := hgtIs_iterate h i (by omega)
    have h2 := hgtIs_iterate h j (by omega)
    simp only at hij
    rw [hij] at h1
    have := hgtIs_unique h1 h2
    omega
  have := Finset.card_le_card_of_injOn (fun i => p^[i] x) hmaps hinj
  simpa using this

/-- Any measured parent map is measured by its exact chain heights. -/
theorem measured_hgt {α : Type} {p : α → α} {m : α → Nat} (hm : Measured p m) :
    ∃ mh : α → Nat, (∀ x, HgtIs p x (mh x)) ∧ Measured p mh := by
  have hex := hgtIs_exists hm
  refine ⟨fun x => Classical.choose (hex x), fun x => Classical.choose_spec (hex x), ?_⟩
  intro x hroot
  have hx := Classical.choose_spec (hex x)
  have hpx := Classical.choose_spec (hex (p x))
  obtain ⟨n', hn', hh⟩ := hgtIs_parent hroot hx
  have := hgtIs_unique hpx hh
  show Classical.choose (hex (p x)) < Classical.choose (hex x)
  omega

theorem updFn_self {α : Type} [DecidableEq α] {p : α → α} {x : α} (h : p x = x) :
    updFn p x x = p := by
  funext y
  rw [updFn]
  by_cases hy : y = x
  · rw [if_pos hy, hy, h]
  · rw [if_neg hy]

/-- Path compression: pointing `x` directly at its root neither breaks the
invariant nor changes any element's root. -/
theorem pointToRoot {α : Type} [DecidableEq α] {S : Finset α} {p : α → α} {x r : α}
    (hInv : UFInv S p) (hroot : UFRoot p x r) :
    UFInv S (updFn p x r) ∧ (∀ y ρ, UFRoot (updFn p x r) y ρ ↔ UFRoot p y ρ) := by
  obtain ⟨hsupp, m, hm⟩ := hInv
  by_cases hx : p x = x
  · have : r = x := ufRoot_unique hroot (ufRoot_self hx)
    subst this
    rw [updFn_self hx]
    exact ⟨⟨hsupp, m, hm⟩, fun y ρ => Iff.rfl⟩
  · obtain ⟨mh, hmh, hmhM⟩ := measured_hgt hm
    have hxS : x ∈ S := (hsupp x hx).1
    have hrx : r ≠ x := by
      intro h
      rw [h] at hroot
      exact hx hroot.2
    have hrS : r ∈ S := by
      obtain ⟨⟨k, hk⟩, _⟩ := hroot
      rw [← hk]
      exact chain_mem hsupp hxS k
    have hp'x : updFn p x r x = r := if_pos rfl
    have hp'ne : ∀ y, y ≠ x → updFn p x r y = p y := fun y hy => if_neg hy
    have hp'r : updFn p x r r = r := by rw [hp'ne r hrx, hroot.2]
    have hmhr : mh r = 0 := hgtIs_unique (hmh r) (hgtIs_zero_iff.2 hroot.2)
    have hmhx : 0 < mh x := by
      rcases Nat.eq_zero_or_pos (mh x) with h0 | h
      · have := (hgtIs_zero_iff (p := p) (x := x)).1 (h0 ▸ hmh x)
        exact absurd this hx
      · exact h
    have hfwd : ∀ y ρ, UFRoot p y ρ → UFRoot (updFn p x r) y ρ := by
      have key : ∀ (n : Nat) (y : α), mh y ≤ n → ∀ ρ, UFRoot p y ρ →
          UFRoot (updFn p x r) y ρ := by
        intro n
        induction n with
        | zero =>
          intro y hy ρ hρ
          by_cases hyx : y = x
          · subst hyx
            omega
          · have hyroot : p y = y := by
              rcases Nat.eq_zero_or_pos (mh y) with h0 | h
              · exact (hgtIs_zero_iff (p := p) (x := y)).1 (h0 ▸ hmh y)
              · omega
            have hρy : ρ = y := ufRoot_unique hρ (ufRoot_self hyroot)
            rw [hρy]
            exact ufRoot_self (by rw [hp'ne y hyx, hyroot])
        | succ n ih =>
          intro y hy ρ hρ
          by_cases hyx : y = x
          · subst hyx
            have : ρ = r := ufRoot_unique hρ hroot
            subst this
            exact ⟨⟨1, by rw [Function.iterate_one, hp'x]⟩, hp'r⟩
          · by_cases hyroot : p y = y
            · have hρy : ρ = y := ufRoot_unique hρ (ufRoot_self hyroot)
              rw [hρy]
              exact ufRoot_self (by rw [hp'ne y hyx, hyroot])
            · have hstep : mh (p y) < mh y := hmhM y hyroot
              have hres := ih (p y) (by omega) ρ (ufRoot_parent hρ)
              have : UFRoot (updFn p x r) (updFn p x r y) ρ := by
                rw [hp'ne y hyx]
                exact hres
              exact ufRoot_of_parent this
      exact fun y ρ => key (mh y) y (le_refl _) ρ
    refine ⟨⟨?_, mh, ?_⟩, ?_⟩
    · intro y hy
      by_cases hyx : y = x
      · subst hyx
        rw [hp'x]
        exact ⟨hxS, hrS⟩
      · rw [hp'ne y hyx] at hy ⊢
        exact hsupp y hy
    · intro y hy
      by_cases hyx : y = x
      · subst hyx
        rw [hp'x] at hy ⊢
        omega
      · rw [hp'ne y hyx] at hy ⊢
        exact hmhM y hy
    · intro y ρ
      constructor
      · intro h
        obtain ⟨ρ', hρ'⟩ := ufRoot_exists hm y
        have := hfwd y ρ' hρ'
        have : ρ = ρ' := ufRoot_unique h this
        exact this ▸ hρ'
      · exact hfwd y ρ

/-- Linking one root under another keeps the invariant, only coarsens the
same-root relation, and merges the two classes. -/
theorem linkRoots {α : Type} [DecidableEq α] {S : Finset α} {p : α → α} {ra rb : α}
    (hInv : UFInv S p) (hra : p ra = ra) (hrb : p rb = rb) (hne : ra ≠ rb)
    (hraS : ra ∈ S) (hrbS : rb ∈ S) :
    UFInv S (updFn p ra rb) ∧
    (∀ y z, SameRoot p y z → SameRoot (updFn p ra rb) y z) ∧
    SameRoot (updFn p ra rb) ra rb := by
  classical
  obtain ⟨hsupp, m, hm⟩ := hInv
  obtain ⟨mh, hmh, hmhM⟩ := measured_hgt hm
  have hp'ra : updFn p ra rb ra = rb := if_pos rfl
  have hp'ne : ∀ y, y ≠ ra → updFn p ra rb y = p y := fun y hy => if_neg hy
  have hp'rb : updFn p ra rb rb = rb := by rw [hp'ne rb hne.symm, hrb]
  have hrootrb : UFRoot (updFn p ra rb) ra rb :=
    ⟨⟨1, by rw [Function.iterate_one, hp'ra]⟩, hp'rb⟩
  have hLa : ∀ y ρ, UFRoot p y ρ → ρ ≠ ra → UFRoot (updFn p ra rb) y ρ := by
    have key : ∀ (n : Nat) (y : α), mh y ≤ n → ∀ ρ, UFRoot p y ρ → ρ ≠ ra →
        UFRoot (updFn p ra rb) y ρ := by
      intro n
      induction n with
      | zero =>
        intro y hy ρ hρ hρa
        have hyroot : p y = y := by
          rcases Nat.eq_zero_or_pos (mh y) with h0 | h
          · exact (hgtIs_zero_iff (p := p) (x := y)).1 (h0 ▸ hmh y)
          · omega
        have hρy : ρ = y := ufRoot_unique hρ (ufRoot_self hyroot)
        rw [hρy]
        rw [hρy] at hρa
        exact ufRoot_self (by rw [hp'ne y hρa, hyroot])
      | succ n ih =>
        intro y hy ρ hρ hρa
        by_cases hyroot : p y = y
        · have hρy : ρ = y := ufRoot_unique hρ (ufRoot_self hyroot)
          rw [hρy]
          rw [hρy] at hρa
          exact ufRoot_self (by rw [hp'ne y hρa, hyroot])
        · have hya : y ≠ ra := by
            intro h
            rw [h] at hyroot
            exact hyroot hra
          have hstep : mh (p y) < mh y := hmhM y hyroot
          have hres := ih (p y) (by omega) ρ (ufRoot_parent hρ) hρa
          have : UFRoot (updFn p ra rb) (updFn p ra rb y) ρ := by
            rw [hp'ne y hya]
            exact hres
          exact ufRoot_of_parent this
    exact fun y ρ => key (mh y) y (le_refl _) ρ
  have hLb : ∀ y, UFRoot p y ra → UFRoot (updFn p ra rb) y rb := by
    have key : ∀ (n : Nat) (y : α), mh y ≤ n → UFRoot p y ra →
        UFRoot (updFn p ra rb) y rb := by
      intro n
      induction n with
      | zero =>
        intro y hy hρ
        have hyroot : p y = y := by
          rcases Nat.eq_zero_or_pos (mh y) with h0 | h
          · exact (hgtIs_zero_iff (p := p) (x := y)).1 (h0 ▸ hmh y)
          · omega
        have hρy : ra = y := ufRoot_unique hρ (ufRoot_self hyroot)
        rw [← hρy]
        exact hrootrb
      | succ n ih =>
        intro y hy hρ
        by_cases hyroot : p y = y
        · have hρy : ra = y := ufRoot_unique hρ (ufRoot_self hyroot)
          rw [← hρy]
          exact hrootrb
        · have hya : y ≠ ra := by
            intro h
            rw [h] at hyroot
            exact hyroot hra
          have hstep : mh (p y) < mh y := hmhM y hyroot
          have hres := ih (p y) (by omega) (ufRoot_parent hρ)
          have : UFRoot (updFn p ra rb) (updFn p ra rb y) rb := by
            rw [hp'ne y hya]
            exact hres
          exact ufRoot_of_parent this
    exact fun y => key (mh y) y (le_refl _)
  refine ⟨⟨?_, ?_⟩, ?_, ⟨rb, hrootrb, ufRoot_self hp'rb⟩⟩
  · intro y hy
    by_cases hya : y = ra
    · subst hya
      rw [hp'ra]
      exact ⟨hraS, hrbS⟩
    · rw [hp'ne y hya] at hy ⊢
      exact hsupp y hy
  · refine ⟨fun y => mh y + (if UFRoot p y ra then 1 else 0), ?_⟩
    intro y hy
    show mh (updFn p ra rb y) + (if UFRoot p (updFn p ra rb y) ra then 1 else 0) <
      mh y + (if UFRoot p y ra then 1 else 0)
    by_cases hya : y = ra
    · have h1 : ¬ UFRoot p rb ra := fun h => hne (ufRoot_unique (ufRoot_self hrb) h).symm
      have h2 : UFRoot p ra ra := ufRoot_self hra
      have hmha : mh ra = 0 := hgtIs_unique (hmh ra) (hgtIs_zero_iff.2 hra)
      have hmhb : mh rb = 0 := hgtIs_unique (hmh rb) (hgtIs_zero_iff.2 hrb)
      rw [hya, hp'ra, if_neg h1, if_pos h2, hmha, hmhb]
      omega
    · rw [hp'ne y hya]
      have hstep : mh (p y) < mh y := by
        apply hmhM
        rwa [hp'ne y hya] at hy
      have hcls : UFRoot p (p y) ra ↔ UFRoot p y ra :=
        ⟨fun h => ufRoot_of_parent h, fun h => ufRoot_parent h⟩
      by_cases hcl : UFRoot p y ra
      · rw [if_pos hcl, if_pos (hcls.2 hcl)]
        omega
      · rw [if_neg hcl, if_neg (fun h => hcl (hcls.1 h))]
        omega
  · intro y z ⟨ρ, hy, hz⟩
    by_cases hρa : ρ = ra
    · subst hρa
      exact ⟨rb, hLb y hy, hLb z hz⟩
    · exact ⟨ρ, hLa y ρ hy hρa, hLa z ρ hz hρa⟩

/-- `ufFindAux` with sufficient fuel returns the root of `x`, preserves
the invariant, and changes no element's root (path compression only). -/
theorem ufFindAux_spec {α : Type} [DecidableEq α] {S : Finset α} :
    ∀ (fuel : Nat) (p : α → α) (x : α) (n : Nat), UFInv S p → HgtIs p x n → n < fuel →
      ∃ p' r, ufFindAux fuel p x = (p', r) ∧ UFRoot p x r ∧ UFInv S p' ∧
        (∀ y ρ, UFRoot p' y ρ ↔ UFRoot p y ρ) := by
  intro fuel
  induction fuel with
  | zero =>
    intro p x n hInv hn hfuel
    omega
  | succ f ih =>
    intro p x n hInv hn hfuel
    by_cases hroot : p x = x
    · refine ⟨p, x, ?_, ufRoot_self hroot, hInv, fun y ρ => Iff.rfl⟩
      rw [ufFindAux, if_pos hroot]
    · obtain ⟨n', rfl, hn'⟩ := hgtIs_parent hroot hn
      obtain ⟨p₁, r, heq, hr, hInv₁, hiff₁⟩ := ih p (p x) n' hInv hn' (by omega)
      have hrx : UFRoot p x r := ufRoot_of_parent hr
      have hrx₁ : UFRoot p₁ x r := (hiff₁ x r).2 hrx
      obtain ⟨hInv₂, hiff₂⟩ := pointToRoot hInv₁ hrx₁
      refine ⟨updFn p₁ x r, r, ?_, hrx, hInv₂, ?_⟩
      · rw [ufFindAux, if_neg hroot, heq]
      · intro y ρ
        rw [hiff₂ y ρ, hiff₁ y ρ]

/-- `find` on the union-find state, with the pipeline's fuel, returns the
root and preserves the invariant and every element's root. -/
theorem ufFind_spec {α : Type} [DecidableEq α] {S : Finset α} (st : UF α)
    (hInv : UFInv S st.parent) (x : α) (fuel : Nat) (hfuel : S.card < fuel) :
    ∃ st' r, ufFind fuel st x = (st', r) ∧ UFRoot st.parent x r ∧
      UFInv S st'.parent ∧ (∀ y ρ, UFRoot st'.parent y ρ ↔ UFRoot st.parent y ρ) ∧
      st'.rank = st.rank := by
  obtain ⟨hsupp, m, hm⟩ := hInv
  obtain ⟨n, hn⟩ := hgtIs_exists hm x
  have hcard := hgt_le_card hsupp hn
  obtain ⟨p', r, heq, hr, hInv', hiff⟩ :=
    ufFindAux_spec fuel st.parent x n ⟨hsupp, m, hm⟩ hn (by omega)
  refine ⟨{ st with parent := p' }, r, ?_, hr, hInv', hiff, rfl⟩
  rw [ufFind, heq]

/-- `union` keeps the invariant, only coarsens the same-root relation, and
makes its two arguments share a root. -/
theorem ufUnion_spec {α : Type} [DecidableEq α] {S : Finset α} (st : UF α)
    (hInv : UFInv S st.parent) (a b : α) (haS : a ∈ S) (hbS : b ∈ S)
    (fuel : Nat) (hfuel : S.card < fuel) :
    UFInv S (ufUnion fuel st a b).parent ∧
    (∀ y z, SameRoot st.parent y z → SameRoot (ufUnion fuel st a b).parent y z) ∧
    SameRoot (ufUnion fuel st a b).parent a b := by
  obtain ⟨st₁, ra, heqa, hra, hInv₁, hiff₁, _⟩ := ufFind_spec st hInv a fuel hfuel
  obtain ⟨st₂, rb, heqb, hrb, hInv₂, hiff₂, _⟩ := ufFind_spec st₁ hInv₁ b fuel hfuel
  have hraS : ra ∈ S := by
    obtain ⟨⟨k, hk⟩, _⟩ := hra
    rw [← hk]
    exact chain_mem hInv.1 haS k
  have hrbS : rb ∈ S := by
    obtain ⟨⟨k, hk⟩, _⟩ := hrb
    rw [← hk]
    exact chain_mem hInv₁.1 hbS k
  have hiff₁₂ : ∀ y ρ, UFRoot st₂.parent y ρ ↔ UFRoot st.parent y ρ :=
    fun y ρ => (hiff₂ y ρ).trans (hiff₁ y ρ)
  have hra₂ : UFRoot st₂.parent a ra := (hiff₁₂ a ra).2 hra
  have hrb₂ : UFRoot st₂.parent b rb := (hiff₂ b rb).2 hrb
  have hraroot : st₂.parent ra = ra := ((hiff₁₂ ra ra).2 (ufRoot_self hra.2)).2
  have hrbroot : st₂.parent rb = rb := ((hiff₂ rb rb).2 (ufRoot_self hrb.2)).2
  have hcombine : ∀ (p' : α → α),
      (∀ y z, SameRoot st₂.parent y z → SameRoot p' y z) → SameRoot p' ra rb →
      (∀ y z, SameRoot st.parent y z → SameRoot p' y z) ∧ SameRoot p' a b := by
    intro p' hcoarse hmerge
    constructor
    · intro y z hyz
      obtain ⟨ρ, hy, hz⟩ := hyz
      exact hcoarse y z ⟨ρ, (hiff₁₂ y ρ).2 hy, (hiff₁₂ z ρ).2 hz⟩
    · obtain ⟨σ, ha', hra''⟩ := hcoarse a ra ⟨ra, hra₂, ufRoot_self hraroot⟩
      obtain ⟨τ, hb', hrb''⟩ := hcoarse b rb ⟨rb, hrb₂, ufRoot_self hrbroot⟩
      obtain ⟨μ, h1', h2'⟩ := hmerge
      have hσ : σ = μ := ufRoot_unique hra'' h1'
      have hτ : τ = μ := ufRoot_unique hrb'' h2'
      exact ⟨μ, hσ ▸ ha', hτ ▸ hb'⟩
  have hunfold : ufUnion fuel st a b =
      (if ra = rb then st₂
       else if st₂.rank ra < st₂.rank rb then { st₂ with parent := updFn st₂.parent ra rb }
       else if st₂.rank rb < st₂.rank ra then { st₂ with parent := updFn st₂.parent rb ra }
       else { parent := updFn st₂.parent rb ra,
              rank := updFn st₂.rank ra (st₂.rank ra + 1) }) := by
    rw [ufUnion, heqa]
    simp only
    rw [heqb]
  rw [hunfold]
  by_cases h1 : ra = rb
  · rw [if_pos h1]
    refine ⟨hInv₂, ?_, ra, hra₂, ?_⟩
    · intro y z hyz
      obtain ⟨ρ, hy, hz⟩ := hyz
      exact ⟨ρ, (hiff₁₂ y ρ).2 hy, (hiff₁₂ z ρ).2 hz⟩
    · rw [h1]
      exact hrb₂
  · rw [if_neg h1]
    by_cases h2 : st₂.rank ra < st₂.rank rb
    · rw [if_pos h2]
      obtain ⟨hInv', hcoarse, hmerge⟩ := linkRoots hInv₂ hraroot hrbroot h1 hraS hrbS
      obtain ⟨hc, hab⟩ := hcombine (updFn st₂.parent ra rb) hcoarse hmerge
      exact ⟨hInv', hc, hab⟩
    · rw [if_neg h2]
      have hne' : rb ≠ ra := fun h => h1 h.symm
      obtain ⟨hInv', hcoarse, hmerge⟩ := linkRoots hInv₂ hrbroot hraroot hne' hrbS hraS
      have hmerge' : SameRoot (updFn st₂.parent rb ra) ra rb := by
        obtain ⟨μ, hx, hy⟩ := hmerge
        exact ⟨μ, hy, hx⟩
      obtain ⟨hc, hab⟩ := hcombine (updFn st₂.parent rb ra) hcoarse hmerge'
      by_cases h3 : st₂.rank rb < st₂.rank ra
      · rw [if_pos h3]
        exact ⟨hInv', hc, hab⟩
      · rw [if_neg h3]
        exact ⟨hInv', hc, hab⟩

/- ================================================================== -/
/- C8: greedy first-fit-decreasing balance                             -/
/- ================================================================== -/

theorem getD_set_self {β : Type} (l : List β) (m : Nat) (v d : β) (h : m < l.length) :
    (l.set m v).getD m d = v := by
  rw [List.getD_eq_getElem?_getD, List.getElem?_set_self h]
  rfl

theorem getD_set_ne {β : Type} (l : List β) (m i : Nat) (v d : β) (h : m ≠ i) :
    (l.set m v).getD i d = l.getD i d := by
  rw [List.getD_eq_getElem?_getD, List.getElem?_set_ne h, ← List.getD_eq_getElem?_getD]

theorem minLoadIdx_lt (loads : List Nat) (h : 0 < loads.length) :
    minLoadIdx loads < loads.length := by
  rw [minLoadIdx]
  have key : ∀ (is : List Nat) (acc : Nat), acc < loads.length →
      (∀ i ∈ is, i < loads.length) →
      is.foldl (fun m i => if loads.getD i 0 < loads.getD m 0 then i else m) acc <
        loads.length := by
    intro is
    induction is with
    | nil => intro acc hacc _; exact hacc
    | cons i is ih =>
      intro acc hacc his
      rw [List.foldl_cons]
      by_cases hc : loads.getD i 0 < loads.getD acc 0
      · rw [if_pos hc]
        exact ih i (his i (List.mem_cons_self _ _)) (fun j hj => his j (List.mem_cons_of_mem _ hj))
      · rw [if_neg hc]
        exact ih acc hacc (fun j hj => his j (List.mem_cons_of_mem _ hj))
  exact key (List.range loads.length) 0 h (fun i hi => List.mem_range.1 hi)

theorem minLoadIdx_min (loads : List Nat) :
    ∀ j, j < loads.length → loads.getD (minLoadIdx loads) 0 ≤ loads.getD j 0 := by
  rw [minLoadIdx]
  have key : ∀ (is : List Nat) (acc : Nat),
      (∀ j, j < loads.length → j ∈ is ∨
        loads.getD acc 0 ≤ loads.getD j 0) →
      ∀ j, j < loads.length →
        loads.getD (is.foldl
          (fun m i => if loads.getD i 0 < loads.getD m 0 then i else m) acc) 0 ≤
          loads.getD j 0 := by
    intro is
    induction is with
    | nil =>
      intro acc hacc j hj
      rcases hacc j hj with h | h
      · simp at h
      · exact h
    | cons i is ih =>
      intro acc hacc j hj
      rw [List.foldl_cons]
      by_cases hc : loads.getD i 0 < loads.getD acc 0
      · rw [if_pos hc]
        refine ih i ?_ j hj
        intro j' hj'
        rcases hacc j' hj' with h | h
        · rcases List.mem_cons.1 h with rfl | h
          · exact Or.inr (le_refl _)
          · exact Or.inl h
        · exact Or.inr (le_trans (le_of_lt hc) h)
      · rw [if_neg hc]
        refine ih acc ?_ j hj
        intro j' hj'
        rcases hacc j' hj' with h | h
        · rcases List.mem_cons.1 h with rfl | h
          · exact Or.inr (by omega)
          · exact Or.inl h
        · exact Or.inr h
  intro j hj
  refine key (List.range loads.length) 0 ?_ j hj
  intro j' hj'
  exact Or.inl (List.mem_range.2 hj')

theorem greedyAssign_lengths (K : Nat) (cs : List (List (Option Int) × Nat)) :
    (greedyAssign K cs).1.length = K ∧ (greedyAssign K cs).2.length = K := by
  rw [greedyAssign]
  have key : ∀ (cs' : List (List (Option Int) × Nat))
      (acc : List (List (Option Int)) × List Nat),
      acc.1.length = K → acc.2.length = K →
      (cs'.foldl greedyStep acc).1.length = K ∧ (cs'.foldl greedyStep acc).2.length = K := by
    intro cs'
    induction cs' with
    | nil => intro acc h1 h2; exact ⟨h1, h2⟩
    | cons c cs' ih =>
      intro acc h1 h2
      rw [List.foldl_cons]
      exact ih _ (by rw [greedyStep]; simpa using h1) (by rw [greedyStep]; simpa using h2)
  exact key cs _ (by simp) (by simp)

theorem greedy_balance_aux (K : Nat) (hK : 0 < K) (B : Nat) :
    ∀ (cs : List (List (Option Int) × Nat)) (acc : List (List (Option Int)) × List Nat),
      acc.2.length = K →
      (∀ c ∈ cs, c.2 ≤ B) →
      (∀ i j, i < K → j < K → acc.2.getD i 0 ≤ acc.2.getD j 0 + B) →
      ∀ i j, i < K → j < K →
        (cs.foldl greedyStep acc).2.getD i 0 ≤ (cs.foldl greedyStep acc).2.getD j 0 + B := by
  intro cs
  induction cs with
  | nil =>
    intro acc _ _ hbal i j hi hj
    exact hbal i j hi hj
  | cons c cs ih =>
    intro acc hlen hsz hbal i j hi hj
    rw [List.foldl_cons]
    have hm := minLoadIdx_lt acc.2 (by omega)
    set m := minLoadIdx acc.2 with hmdef
    have hmin : ∀ t, t < acc.2.length → acc.2.getD m 0 ≤ acc.2.getD t 0 := by
      rw [hmdef]
      exact minLoadIdx_min acc.2
    have hlen' : (greedyStep acc c).2.length = K := by
      rw [greedyStep]
      simpa using hlen
    have hcB : c.2 ≤ B := hsz c (List.mem_cons_self _ _)
    refine ih (greedyStep acc c) hlen' (fun c' hc' => hsz c' (List.mem_cons_of_mem _ hc'))
      ?_ i j hi hj
    intro i' j' hi' hj'
    have hstep : ∀ t, t < K → (greedyStep acc c).2.getD t 0 =
        if m = t then acc.2.getD m 0 + c.2 else acc.2.getD t 0 := by
      intro t ht
      rw [greedyStep]
      by_cases hmt : m = t
      · rw [if_pos hmt, ← hmt]
        exact getD_set_self _ _ _ _ (by omega)
      · rw [if_neg hmt]
        exact getD_set_ne _ _ _ _ _ hmt
    rw [hstep i' hi', hstep j' hj']
    by_cases hmi : m = i' <;> by_cases hmj : m = j'
    · rw [if_pos hmi, if_pos hmj]
      omega
    · rw [if_pos hmi, if_neg hmj]
      have := hmin j' (by omega)
      omega
    · rw [if_neg hmi, if_pos hmj]
      have := hbal i' m hi' (by omega)
      omega
    · rw [if_neg hmi, if_neg hmj]
      exact hbal i' j' hi' hj'

/-- The largest single component entry-count. -/
def maxCompSize (rows : List SplitRow) : Nat :=
  ((compWithSize rows).map (·.2)).foldr max 0

theorem foldr_max_le {l : List Nat} : ∀ x ∈ l, x ≤ l.foldr max 0 := by
  induction l with
  | nil => simp
  | cons y ys ih =>
    intro x hx
    rcases List.mem_cons.1 hx with rfl | hx
    · exact le_max_left _ _
    · exact le_trans (ih x hx) (le_max_right _ _)

/-- Claim C8: after the greedy assignment of the components, in descending
entry-count order, each to the currently least-loaded of the `K` groups,
every group's entry-count exceeds every other's by at most the largest
single component's entry-count (so in particular the maximum load exceeds
the minimum load by at most that amount). -/
theorem greedy_balance_spec (rows : List SplitRow) (K : Nat) (hK : 0 < K) :
    ∀ i j, i < K → j < K →
      (splitLoads K rows).getD i 0 ≤ (splitLoads K rows).getD j 0 + maxCompSize rows := by
  intro i j hi hj
  rw [splitLoads, greedyAssign]
  refine greedy_balance_aux K hK (maxCompSize rows) (compWithSize rows)
    (List.replicate K [], List.replicate K 0) (by simp) ?_ ?_ i j hi hj
  · intro c hc
    exact foldr_max_le _ (List.mem_map.2 ⟨c, hc, rfl⟩)
  · intro i' j' hi' hj'
    simp only [List.getD_eq_getElem?_getD, List.getElem?_replicate]
    rw [if_pos (by omega), if_pos (by omega)]
    simp

/-- Claim C8 witness: a concrete two-line input split into 3 groups
satisfies the balance bound. -/
theorem greedy_balance_spec_witness :
    (0 < 3 ∧
      (splitLoads 3 [parseSplitRow "1\t10\tI\tM\t100", parseSplitRow "2\t20\tI\tM\t200"]).getD
          0 0 ≤
        (splitLoads 3 [parseSplitRow "1\t10\tI\tM\t100",
          parseSplitRow "2\t20\tI\tM\t200"]).getD 1 0 +
          maxCompSize [parseSplitRow "1\t10\tI\tM\t100", parseSplitRow "2\t20\tI\tM\t200"]) ∧
    splitLoads 3 [parseSplitRow "1\t10\tI\tM\t100", parseSplitRow "2\t20\tI\tM\t200"] =
      [1, 1, 0] := by
  refine ⟨⟨by decide, greedy_balance_spec _ 3 (by decide) 0 1 (by decide) (by decide)⟩, ?_⟩
  decide

/- ================================================================== -/
/- C2: partition invariants                                            -/
/- ================================================================== -/

theorem sameRoot_refl {α : Type} {p : α → α} {m : α → Nat} (hm : Measured p m) (y : α) :
    SameRoot p y y := by
  obtain ⟨r, hr⟩ := ufRoot_exists hm y
  exact ⟨r, hr, hr⟩

theorem sameRoot_symm {α : Type} {p : α → α} {y z : α} (h : SameRoot p y z) :
    SameRoot p z y := by
  obtain ⟨r, h1, h2⟩ := h
  exact ⟨r, h2, h1⟩

theorem sameRoot_trans {α : Type} {p : α → α} {x y z : α}
    (h1 : SameRoot p x y) (h2 : SameRoot p y z) : SameRoot p x z := by
  obtain ⟨r, hx, hy⟩ := h1
  obtain ⟨r', hy', hz⟩ := h2
  have : r = r' := ufRoot_unique hy hy'
  exact ⟨r, hx, this ▸ hz⟩

theorem unionInner_spec {α : Type} [DecidableEq α] {S : Finset α} (fuel : Nat)
    (hfuel : S.card < fuel) (r0 : α) (hr0 : r0 ∈ S) :
    ∀ (rest : List α) (st : UF α), UFInv S st.parent → (∀ x ∈ rest, x ∈ S) →
      UFInv S ((rest.foldl (fun s ri => ufUnion fuel s r0 ri) st).parent) ∧
      (∀ y z, SameRoot st.parent y z →
        SameRoot ((rest.foldl (fun s ri => ufUnion fuel s r0 ri) st).parent) y z) ∧
      (∀ ri ∈ rest,
        SameRoot ((rest.foldl (fun s ri => ufUnion fuel s r0 ri) st).parent) r0 ri) := by
  intro rest
  induction rest with
  | nil =>
    intro st hInv _
    exact ⟨hInv, fun y z h => h, by simp⟩
  | cons ri rest ih =>
    intro st hInv hmem
    rw [List.foldl_cons]
    obtain ⟨hInv', hcoarse', hsame'⟩ :=
      ufUnion_spec st hInv r0 ri hr0 (hmem ri (List.mem_cons_self _ _)) fuel hfuel
    obtain ⟨hInv'', hcoarse'', hsame''⟩ :=
      ih (ufUnion fuel st r0 ri) hInv' (fun x hx => hmem x (List.mem_cons_of_mem _ hx))
    refine ⟨hInv'', fun y z h => hcoarse'' y z (hcoarse' y z h), ?_⟩
    intro x hx
    rcases List.mem_cons.1 hx with rfl | hx
    · exact hcoarse'' r0 x hsame'
    · exact hsame'' x hx

theorem invReceipts_subset (rows : List SplitRow) (inv : Option Int) :
    ∀ r ∈ invReceipts rows inv, r ∈ rcptIds rows := by
  intro r hr
  exact (List.mem_filter.1 hr).1

theorem initUF_inv {α : Type} (S : Finset α) : UFInv S (initUF α).parent := by
  refine ⟨fun y hy => absurd rfl hy, fun _ => 0, fun y hy => absurd rfl hy⟩

theorem card_lt_ufFuel (rows : List SplitRow) :
    ((rcptIds rows).toFinset).card < ufFuel rows := by
  rw [ufFuel]
  have := List.toFinset_card_le (rcptIds rows)
  omega

theorem unionAll_spec (rows : List SplitRow) :
    UFInv (rcptIds rows).toFinset (unionAll rows).parent ∧
    (∀ inv ∈ allInvIds rows, ∀ r r', r ∈ invReceipts rows inv →
      r' ∈ invReceipts rows inv → SameRoot (unionAll rows).parent r r') := by
  have hfuel := card_lt_ufFuel rows
  set S := (rcptIds rows).toFinset with hS
  have key : ∀ (invs : List (Option Int)) (st : UF (Option Int)), UFInv S st.parent →
      UFInv S ((invs.foldl (fun st inv =>
        match invReceipts rows inv with
        | [] => st
        | r0 :: rest => rest.foldl (fun s ri => ufUnion (ufFuel rows) s r0 ri) st) st).parent) ∧
      (∀ y z, SameRoot st.parent y z →
        SameRoot ((invs.foldl (fun st inv =>
          match invReceipts rows inv with
          | [] => st
          | r0 :: rest => rest.foldl (fun s ri => ufUnion (ufFuel rows) s r0 ri) st)
          st).parent) y z) ∧
      (∀ inv ∈ invs, ∀ r r', r ∈ invReceipts rows inv → r' ∈ invReceipts rows inv →
        SameRoot ((invs.foldl (fun st inv =>
          match invReceipts rows inv with
          | [] => st
          | r0 :: rest => rest.foldl (fun s ri => ufUnion (ufFuel rows) s r0 ri) st)
          st).parent) r r') := by
    intro invs
    induction invs with
    | nil =>
      intro st hInv
      exact ⟨hInv, fun y z h => h, by simp⟩
    | cons inv invs ih =>
      intro st hInv
      rw [List.foldl_cons]
      match hrecs : invReceipts rows inv with
      | [] =>
        obtain ⟨hInv', hcoarse', hsame'⟩ := ih st hInv
        refine ⟨hInv', hcoarse', ?_⟩
        intro inv' hinv' r r' hr hr'
        rcases List.mem_cons.1 hinv' with rfl | hinv'
        · rw [hrecs] at hr
          simp at hr
        · exact hsame' inv' hinv' r r' hr hr'
      | r0 :: rest =>
        have hr0S : r0 ∈ S := by
          rw [hS]
          exact List.mem_toFinset.2 (invReceipts_subset rows inv r0
            (hrecs ▸ List.mem_cons_self _ _))
        have hrestS : ∀ x ∈ rest, x ∈ S := by
          intro x hx
          rw [hS]
          exact List.mem_toFinset.2 (invReceipts_subset rows inv x
            (hrecs ▸ List.mem_cons_of_mem _ hx))
        obtain ⟨hInv₁, hcoarse₁, hsame₁⟩ :=
          unionInner_spec (ufFuel rows) hfuel r0 hr0S rest st hInv hrestS
        obtain ⟨hInv₂, hcoarse₂, hsame₂⟩ := ih _ hInv₁
        refine ⟨hInv₂, fun y z h => hcoarse₂ y z (hcoarse₁ y z h), ?_⟩
        intro inv' hinv' r r' hr hr'
        rcases List.mem_cons.1 hinv' with heq | hinv'
        · subst heq
          obtain ⟨m₁, hm₁⟩ := hInv₁.2
          have hall : ∀ x ∈ invReceipts rows inv',
              SameRoot (rest.foldl (fun s ri => ufUnion (ufFuel rows) s r0 ri) st).parent
                r0 x := by
            intro x hx
            rw [hrecs] at hx
            rcases List.mem_cons.1 hx with rfl | hx
            · exact sameRoot_refl hm₁ x
            · exact hsame₁ x hx
          have h1 := hall r hr
          have h2 := hall r' hr'
          exact hcoarse₂ r r' (sameRoot_trans (sameRoot_symm h1) h2)
        · exact hsame₂ inv' hinv' r r' hr hr'
  obtain ⟨hInv, _, hsame⟩ := key (allInvIds rows) (initUF (Option Int)) (initUF_inv S)
  exact ⟨hInv, hsame⟩

theorem addToComp_keys (comps : List (Option Int × List (Option Int)))
    (root r : Option Int) :
    (addToComp comps root r).map (·.1) =
      if root ∈ comps.map (·.1) then comps.map (·.1) else comps.map (·.1) ++ [root] := by
  induction comps with
  | nil => simp [addToComp]
  | cons c cs ih =>
    rw [addToComp]
    by_cases hc : c.1 = root
    · rw [if_pos hc]
      simp only [List.map_cons]
      rw [if_pos (by rw [hc]; exact List.mem_cons_self _ _)]
    · rw [if_neg hc]
      simp only [List.map_cons, ih]
      by_cases hmem : root ∈ cs.map (·.1)
      · rw [if_pos hmem, if_pos (List.mem_cons_of_mem _ hmem)]
      · rw [if_neg hmem, if_neg ?_]
        · simp
        · intro h
          rcases List.mem_cons.1 h with h | h
          · exact hc h.symm
          · exact hmem h

theorem addToComp_mem_set (comps : List (Option Int × List (Option Int)))
    (root r x : Option Int) :
    (∃ kb ∈ addToComp comps root r, x ∈ kb.2) ↔
      (∃ kb ∈ comps, x ∈ kb.2) ∨ x = r := by
  induction comps with
  | nil =>
    simp [addToComp]
  | cons c cs ih =>
    rw [addToComp]
    by_cases hc : c.1 = root
    · rw [if_pos hc]
      constructor
      · rintro ⟨kb, hkb, hx⟩
        rcases List.mem_cons.1 hkb with rfl | hkb
        · rcases List.mem_append.1 hx with hx | hx
          · exact Or.inl ⟨c, List.mem_cons_self _ _, hx⟩
          · exact Or.inr (List.mem_singleton.1 hx)
        · exact Or.inl ⟨kb, List.mem_cons_of_mem _ hkb, hx⟩
      · rintro (⟨kb, hkb, hx⟩ | rfl)
        · rcases List.mem_cons.1 hkb with rfl | hkb
          · exact ⟨(kb.1, kb.2 ++ [r]), List.mem_cons_self _ _,
              List.mem_append.2 (Or.inl hx)⟩
          · exact ⟨kb, List.mem_cons_of_mem _ hkb, hx⟩
        · exact ⟨(c.1, c.2 ++ [x]), List.mem_cons_self _ _,
            List.mem_append.2 (Or.inr (List.mem_singleton.2 rfl))⟩
    · rw [if_neg hc]
      constructor
      · rintro ⟨kb, hkb, hx⟩
        rcases List.mem_cons.1 hkb with rfl | hkb
        · exact Or.inl ⟨kb, List.mem_cons_self _ _, hx⟩
        · rcases ih.1 ⟨kb, hkb, hx⟩ with h | h
          · obtain ⟨kb', hkb', hx'⟩ := h
            exact Or.inl ⟨kb', List.mem_cons_of_mem _ hkb', hx'⟩
          · exact Or.inr h
      · rintro (⟨kb, hkb, hx⟩ | rfl)
        · rcases List.mem_cons.1 hkb with rfl | hkb
          · exact ⟨kb, List.mem_cons_self _ _, hx⟩
          · obtain ⟨kb', hkb', hx'⟩ := ih.2 (Or.inl ⟨kb, hkb, hx⟩)
            exact ⟨kb', List.mem_cons_of_mem _ hkb', hx'⟩
        · obtain ⟨kb', hkb', hx'⟩ := ih.2 (Or.inr rfl)
          exact ⟨kb', List.mem_cons_of_mem _ hkb', hx'⟩

theorem addToComp_pres (P : Option Int → Option Int → Prop)
    (comps : List (Option Int × List (Option Int))) (root r : Option Int)
    (hold : ∀ kb ∈ comps, ∀ x ∈ kb.2, P kb.1 x) (hnew : P root r) :
    ∀ kb ∈ addToComp comps root r, ∀ x ∈ kb.2, P kb.1 x := by
  induction comps with
  | nil =>
    intro kb hkb x hx
    rw [addToComp] at hkb
    rcases List.mem_singleton.1 hkb with rfl
    rcases List.mem_singleton.1 hx with rfl
    exact hnew
  | cons c cs ih =>
    intro kb hkb x hx
    rw [addToComp] at hkb
    by_cases hc : c.1 = root
    · rw [if_pos hc] at hkb
      rcases List.mem_cons.1 hkb with rfl | hkb
      · rcases List.mem_append.1 hx with hx | hx
        · exact hold c (List.mem_cons_self _ _) x hx
        · rcases List.mem_singleton.1 hx with rfl
          show P c.1 x
          rw [hc]
          exact hnew
      · exact hold kb (List.mem_cons_of_mem _ hkb) x hx
    · rw [if_neg hc] at hkb
      rcases List.mem_cons.1 hkb with rfl | hkb
      · exact hold kb (List.mem_cons_self _ _) x hx
      · exact ih (fun kb' hkb' => hold kb' (List.mem_cons_of_mem _ hkb')) kb hkb x hx

theorem addToComp_ne (comps : List (Option Int × List (Option Int)))
    (root r : Option Int) (h : ∀ kb ∈ comps, kb.2 ≠ []) :
    ∀ kb ∈ addToComp comps root r, kb.2 ≠ [] := by
  induction comps with
  | nil =>
    intro kb hkb
    rw [addToComp] at hkb
    rcases List.mem_singleton.1 hkb with rfl
    simp
  | cons c cs ih =>
    intro kb hkb
    rw [addToComp] at hkb
    by_cases hc : c.1 = root
    · rw [if_pos hc] at hkb
      rcases List.mem_cons.1 hkb with rfl | hkb
      · simp
      · exact h kb (List.mem_cons_of_mem _ hkb)
    · rw [if_neg hc] at hkb
      rcases List.mem_cons.1 hkb with rfl | hkb
      · exact h kb (List.mem_cons_self _ _)
      · exact ih (fun kb' hkb' => h kb' (List.mem_cons_of_mem _ hkb')) kb hkb

theorem componentsFold_go (rows : List SplitRow) (todo : List (Option Int)) :
    ∀ (st : UF (Option Int)) (comps : List (Option Int × List (Option Int))),
      UFInv (rcptIds rows).toFinset st.parent →
      (∀ y ρ, UFRoot st.parent y ρ ↔ UFRoot (unionAll rows).parent y ρ) →
      ((comps.map (·.1)).Nodup) →
      (∀ kb ∈ comps, ∀ x ∈ kb.2, UFRoot (unionAll rows).parent x kb.1) →
      (∀ kb ∈ comps, kb.2 ≠ []) →
      (((todo.foldl (fun acc r =>
          let f := ufFind (ufFuel rows) acc.1 r
          (f.1, addToComp acc.2 f.2 r)) (st, comps)).2.map (·.1)).Nodup) ∧
      (∀ kb ∈ (todo.foldl (fun acc r =>
          let f := ufFind (ufFuel rows) acc.1 r
          (f.1, addToComp acc.2 f.2 r)) (st, comps)).2, ∀ x ∈ kb.2,
        UFRoot (unionAll rows).parent x kb.1) ∧
      (∀ kb ∈ (todo.foldl (fun acc r =>
          let f := ufFind (ufFuel rows) acc.1 r
          (f.1, addToComp acc.2 f.2 r)) (st, comps)).2, kb.2 ≠ []) ∧
      (∀ x, (∃ kb ∈ (todo.foldl (fun acc r =>
          let f := ufFind (ufFuel rows) acc.1 r
          (f.1, addToComp acc.2 f.2 r)) (st, comps)).2, x ∈ kb.2) ↔
        (∃ kb ∈ comps, x ∈ kb.2) ∨ x ∈ todo) := by
  induction todo with
  | nil =>
    intro st comps _ _ hnd hP hne
    refine ⟨hnd, hP, hne, fun x => ?_⟩
    simp
  | cons r todo ih =>
    intro st comps hInv hiff hnd hP hne
    obtain ⟨st', root, heq, hroot, hInv', hiff', _⟩ :=
      ufFind_spec st hInv r (ufFuel rows) (card_lt_ufFuel rows)
    have hstep : ((r :: todo).foldl (fun acc r =>
        let f := ufFind (ufFuel rows) acc.1 r
        (f.1, addToComp acc.2 f.2 r)) (st, comps)) =
        (todo.foldl (fun acc r =>
        let f := ufFind (ufFuel rows) acc.1 r
        (f.1, addToComp acc.2 f.2 r)) (st', addToComp comps root r)) := by
      rw [List.foldl_cons]
      show (todo.foldl _ ((ufFind (ufFuel rows) st r).1,
        addToComp comps (ufFind (ufFuel rows) st r).2 r)) = _
      rw [heq]
    rw [hstep]
    have hrootStar : UFRoot (unionAll rows).parent r root := (hiff r root).1 hroot
    have hiff2 : ∀ y ρ, UFRoot st'.parent y ρ ↔ UFRoot (unionAll rows).parent y ρ :=
      fun y ρ => (hiff' y ρ).trans (hiff y ρ)
    have hnd' : ((addToComp comps root r).map (·.1)).Nodup := by
      rw [addToComp_keys]
      by_cases hmem : root ∈ comps.map (·.1)
      · rw [if_pos hmem]; exact hnd
      · rw [if_neg hmem]
        refine List.Nodup.append hnd (List.nodup_singleton _) ?_
        intro a ha hb
        rw [List.mem_singleton] at hb
        exact hmem (hb ▸ ha)
    have hP' : ∀ kb ∈ addToComp comps root r, ∀ x ∈ kb.2,
        UFRoot (unionAll rows).parent x kb.1 :=
      addToComp_pres (fun k x => UFRoot (unionAll rows).parent x k) comps root r hP hrootStar
    have hne' := addToComp_ne comps root r hne
    obtain ⟨a, b, c, d⟩ := ih st' (addToComp comps root r) hInv' hiff2 hnd' hP' hne'
    refine ⟨a, b, c, fun x => ?_⟩
    rw [d x, addToComp_mem_set]
    simp only [List.mem_cons]
    exact or_assoc

theorem componentsFold_spec (rows : List SplitRow) :
    (((componentsFold rows).2.map (·.1)).Nodup) ∧
    (∀ kb ∈ (componentsFold rows).2, ∀ x ∈ kb.2,
      UFRoot (unionAll rows).parent x kb.1) ∧
    (∀ kb ∈ (componentsFold rows).2, kb.2 ≠ []) ∧
    (∀ x, (∃ kb ∈ (componentsFold rows).2, x ∈ kb.2) ↔ x ∈ rcptIds rows) := by
  obtain ⟨a, b, c, d⟩ := componentsFold_go rows (rcptIds rows)
    (unionAll rows) [] (unionAll_spec rows).1
    (fun y ρ => Iff.rfl) List.nodup_nil
    (fun kb hkb => absurd hkb (List.not_mem_nil kb))
    (fun kb hkb => absurd hkb (List.not_mem_nil kb))
  rw [componentsFold]
  refine ⟨a, b, c, fun x => (d x).trans ?_⟩
  simp

theorem countP_le_one_of_keys
    (comps : List (Option Int × List (Option Int))) (x ρ : Option Int)
    (hnd : (comps.map (·.1)).Nodup)
    (hroot : ∀ kb ∈ comps, x ∈ kb.2 → kb.1 = ρ) :
    comps.countP (fun kb => decide (x ∈ kb.2)) ≤ 1 := by
  induction comps with
  | nil => simp
  | cons c cs ih =>
    rw [List.countP_cons]
    rw [List.map_cons, List.nodup_cons] at hnd
    by_cases hx : x ∈ c.2
    · have hkey : c.1 = ρ := hroot c (List.mem_cons_self _ _) hx
      have hzero : cs.countP (fun kb => decide (x ∈ kb.2)) = 0 := by
        rw [List.countP_eq_zero]
        intro kb hkb
        simp only [decide_eq_true_eq]
        intro hxkb
        have : kb.1 = ρ := hroot kb (List.mem_cons_of_mem _ hkb) hxkb
        exact hnd.1 (by rw [hkey, ← this]; exact List.mem_map_of_mem _ hkb)
      rw [hzero]
      simp [hx]
    · have : (decide (x ∈ c.2) : Bool) = false := by simp [hx]
      rw [this]
      simpa using ih hnd.2 (fun kb hkb => hroot kb (List.mem_cons_of_mem _ hkb))

theorem eq_of_key {α : Type} (comps : List (α × List α))
    (hnd : (comps.map (·.1)).Nodup) :
    ∀ kb kb', kb ∈ comps → kb' ∈ comps → kb.1 = kb'.1 → kb = kb' := by
  induction comps with
  | nil => intro kb kb' h; exact absurd h (List.not_mem_nil kb)
  | cons c cs ih =>
    rw [List.map_cons, List.nodup_cons] at hnd
    intro kb kb' hkb hkb' hk
    rcases List.mem_cons.1 hkb with h1 | h1
    · rcases List.mem_cons.1 hkb' with h2 | h2
      · rw [h1, h2]
      · exfalso
        apply hnd.1
        have hmem : kb'.1 ∈ cs.map (·.1) := List.mem_map_of_mem _ h2
        rw [← hk, h1] at hmem
        exact hmem
    · rcases List.mem_cons.1 hkb' with h2 | h2
      · exfalso
        apply hnd.1
        have hmem : kb.1 ∈ cs.map (·.1) := List.mem_map_of_mem _ h1
        rw [hk, h2] at hmem
        exact hmem
      · exact ih hnd.2 kb kb' h1 h2 hk

theorem components_mem (rows : List SplitRow) (x : Option Int) :
    (∃ c ∈ components rows, x ∈ c) ↔ x ∈ rcptIds rows := by
  obtain ⟨-, -, -, d⟩ := componentsFold_spec rows
  rw [← d x, components]
  constructor
  · rintro ⟨c, hc, hx⟩
    obtain ⟨kb, hkb, rfl⟩ := List.mem_map.1 hc
    exact ⟨kb, hkb, hx⟩
  · rintro ⟨kb, hkb, hx⟩
    exact ⟨kb.2, List.mem_map_of_mem _ hkb, hx⟩

theorem components_countP (rows : List SplitRow) (x : Option Int) :
    (components rows).countP (fun c => decide (x ∈ c)) ≤ 1 := by
  obtain ⟨hnd, hP, -, -⟩ := componentsFold_spec rows
  rw [components, List.countP_map]
  show (componentsFold rows).2.countP (fun kb => decide (x ∈ kb.2)) ≤ 1
  by_cases hex : ∃ kb ∈ (componentsFold rows).2, x ∈ kb.2
  · obtain ⟨kb0, hkb0, hx0⟩ := hex
    refine countP_le_one_of_keys _ x kb0.1 hnd ?_
    intro kb hkb hx
    exact ufRoot_unique (hP kb hkb x hx) (hP kb0 hkb0 x hx0)
  · have hz : ((componentsFold rows).2.countP (fun kb => decide (x ∈ kb.2))) = 0 := by
      rw [List.countP_eq_zero]
      intro kb hkb
      simp only [decide_eq_true_eq]
      exact fun hx => hex ⟨kb, hkb, hx⟩
    rw [hz]
    omega

theorem components_sameRoot (rows : List SplitRow) :
    ∀ c ∈ components rows, ∀ x ∈ c, ∀ y ∈ c,
      SameRoot (unionAll rows).parent x y := by
  obtain ⟨-, hP, -, -⟩ := componentsFold_spec rows
  intro c hc x hx y hy
  obtain ⟨kb, hkb, rfl⟩ := List.mem_map.1 hc
  exact ⟨kb.1, hP kb hkb x hx, hP kb hkb y hy⟩

theorem components_closed (rows : List SplitRow) :
    ∀ c ∈ components rows, ∀ x ∈ c, ∀ y, y ∈ rcptIds rows →
      SameRoot (unionAll rows).parent x y → y ∈ c := by
  obtain ⟨hnd, hP, -, d⟩ := componentsFold_spec rows
  intro c hc x hx y hyr hsame
  obtain ⟨kb, hkb, rfl⟩ := List.mem_map.1 hc
  obtain ⟨kb', hkb', hy'⟩ := (d y).2 hyr
  obtain ⟨ρ, hxρ, hyρ⟩ := hsame
  have h1 : kb.1 = ρ := ufRoot_unique (hP kb hkb x hx) hxρ
  have h2 : kb'.1 = ρ := ufRoot_unique (hP kb' hkb' y hy') hyρ
  have : kb = kb' := eq_of_key _ hnd kb kb' hkb hkb' (h1.trans h2.symm)
  rw [this]
  exact hy'

theorem compWithSize_perm (rows : List SplitRow) :
    (compWithSize rows).Perm ((components rows).map (fun c =>
      (c.insertionSort (fun a b => keyLe a b = true), compLineCount rows c))) := by
  rw [compWithSize, sortedComponents]
  exact (List.perm_insertionSort _ _).trans ((List.perm_insertionSort _ _).map _)

theorem compWithSize_mem (rows : List SplitRow) (x : Option Int) :
    (∃ e ∈ compWithSize rows, x ∈ e.1) ↔ x ∈ rcptIds rows := by
  rw [← components_mem rows x]
  constructor
  · rintro ⟨e, he, hx⟩
    obtain ⟨c, hc, heq⟩ := List.mem_map.1 ((compWithSize_perm rows).mem_iff.1 he)
    refine ⟨c, hc, ?_⟩
    rw [← heq] at hx
    exact (List.perm_insertionSort _ c).mem_iff.1 hx
  · rintro ⟨c, hc, hx⟩
    refine ⟨(c.insertionSort (fun a b => keyLe a b = true), compLineCount rows c),
      (compWithSize_perm rows).mem_iff.2 (List.mem_map_of_mem _ hc),
      (List.perm_insertionSort _ c).mem_iff.2 hx⟩

theorem compWithSize_countP (rows : List SplitRow) (x : Option Int) :
    (compWithSize rows).countP (fun e => decide (x ∈ e.1)) ≤ 1 := by
  rw [(compWithSize_perm rows).countP_eq, List.countP_map]
  have hcong : ∀ c ∈ components rows,
      ((fun e : List (Option Int) × Nat => decide (x ∈ e.1)) ∘
        (fun c => (c.insertionSort (fun a b => keyLe a b = true),
          compLineCount rows c))) c = true ↔ (fun c => decide (x ∈ c)) c = true := by
    intro c hc
    simp only [Function.comp_apply, decide_eq_true_eq]
    exact (List.perm_insertionSort _ c).mem_iff
  rw [List.countP_congr hcong]
  exact components_countP rows x

theorem compWithSize_sameRoot (rows : List SplitRow) :
    ∀ e ∈ compWithSize rows, ∀ x ∈ e.1, ∀ y ∈ e.1,
      SameRoot (unionAll rows).parent x y := by
  intro e he x hx y hy
  obtain ⟨c, hc, heq⟩ := List.mem_map.1 ((compWithSize_perm rows).mem_iff.1 he)
  rw [← heq] at hx hy
  exact components_sameRoot rows c hc x ((List.perm_insertionSort _ c).mem_iff.1 hx)
    y ((List.perm_insertionSort _ c).mem_iff.1 hy)

theorem compWithSize_closed (rows : List SplitRow) :
    ∀ e ∈ compWithSize rows, ∀ x ∈ e.1, ∀ y, y ∈ rcptIds rows →
      SameRoot (unionAll rows).parent x y → y ∈ e.1 := by
  intro e he x hx y hyr hs
  obtain ⟨c, hc, heq⟩ := List.mem_map.1 ((compWithSize_perm rows).mem_iff.1 he)
  rw [← heq] at hx ⊢
  exact (List.perm_insertionSort _ c).mem_iff.2
    (components_closed rows c hc x ((List.perm_insertionSort _ c).mem_iff.1 hx) y hyr hs)

theorem mem_foldl_jsSetAdd {α : Type} [DecidableEq α] (l acc : List α) (x : α) :
    x ∈ l.foldl jsSetAdd acc ↔ x ∈ acc ∨ x ∈ l := by
  rw [foldl_jsSetAdd_eq, List.mem_append, mem_jsDedupRec, List.mem_filter]
  simp only [decide_eq_true_eq]
  by_cases hx : x ∈ acc <;> tauto

theorem mem_getD_lt {α : Type} (l : List (List α)) (i : Nat) (x : α)
    (h : x ∈ l.getD i []) : i < l.length := by
  by_contra hge
  have hnone : l[i]? = none := List.getElem?_eq_none (by omega)
  rw [List.getD_eq_getElem?_getD, hnone] at h
  exact absurd h (List.not_mem_nil x)

theorem greedy_mono (cs : List (List (Option Int) × Nat)) :
    ∀ (acc : List (List (Option Int)) × List Nat) (i : Nat) (r : Option Int),
      r ∈ acc.1.getD i [] → r ∈ (cs.foldl greedyStep acc).1.getD i [] := by
  induction cs with
  | nil => intro acc i r h; exact h
  | cons c cs ih =>
    intro acc i r h
    rw [List.foldl_cons]
    apply ih
    show r ∈ (acc.1.set (minLoadIdx acc.2)
      (c.1.foldl jsSetAdd (acc.1.getD (minLoadIdx acc.2) []))).getD i []
    by_cases him : minLoadIdx acc.2 = i
    · have hlen : i < acc.1.length := mem_getD_lt _ _ _ h
      rw [him]
      rw [getD_set_self _ _ _ _ hlen]
      exact (mem_foldl_jsSetAdd _ _ _).2 (Or.inl h)
    · rw [getD_set_ne _ _ _ _ _ him]
      exact h

theorem greedy_whole (cs : List (List (Option Int) × Nat)) (K : Nat) (hK : 0 < K) :
    ∀ (acc : List (List (Option Int)) × List Nat),
      acc.1.length = K → acc.2.length = K →
      ∀ c ∈ cs, ∃ i, i < K ∧ ∀ x ∈ c.1, x ∈ (cs.foldl greedyStep acc).1.getD i [] := by
  induction cs with
  | nil => intro acc h1 h2 c hc; exact absurd hc (List.not_mem_nil c)
  | cons c0 cs ih =>
    intro acc h1 h2 c hc
    have hstep1 : (greedyStep acc c0).1.length = K := by
      show (acc.1.set _ _).length = K
      rw [List.length_set]
      exact h1
    have hstep2 : (greedyStep acc c0).2.length = K := by
      show (acc.2.set _ _).length = K
      rw [List.length_set]
      exact h2
    rw [List.foldl_cons]
    rcases List.mem_cons.1 hc with heq | hc
    · refine ⟨minLoadIdx acc.2, ?_, fun x hx => ?_⟩
      · have := minLoadIdx_lt acc.2 (by omega)
        omega
      · rw [heq] at hx
        apply greedy_mono cs (greedyStep acc c0) (minLoadIdx acc.2) x
        show x ∈ (acc.1.set (minLoadIdx acc.2)
          (c0.1.foldl jsSetAdd (acc.1.getD (minLoadIdx acc.2) []))).getD (minLoadIdx acc.2) []
        rw [getD_set_self]
        · exact (mem_foldl_jsSetAdd _ _ _).2 (Or.inr hx)
        · have := minLoadIdx_lt acc.2 (by omega)
          omega
    · exact ih (greedyStep acc c0) hstep1 hstep2 c hc

theorem greedy_prov (cs : List (List (Option Int) × Nat)) :
    ∀ (acc : List (List (Option Int)) × List Nat) (i : Nat) (r : Option Int),
      r ∈ (cs.foldl greedyStep acc).1.getD i [] →
      r ∈ acc.1.getD i [] ∨ ∃ c ∈ cs, r ∈ c.1 ∧
        ∀ x ∈ c.1, x ∈ (cs.foldl greedyStep acc).1.getD i [] := by
  induction cs with
  | nil => intro acc i r h; exact Or.inl h
  | cons c0 cs ih =>
    intro acc i r h
    rw [List.foldl_cons] at h ⊢
    rcases ih (greedyStep acc c0) i r h with h1 | hcase
    · have h1' : r ∈ (acc.1.set (minLoadIdx acc.2)
          (c0.1.foldl jsSetAdd (acc.1.getD (minLoadIdx acc.2) []))).getD i [] := h1
      by_cases him : minLoadIdx acc.2 = i
      · rw [him] at h1'
        have hlen : i < acc.1.length := by
          have := mem_getD_lt _ _ _ h1'
          rw [List.length_set] at this
          exact this
        rw [getD_set_self _ _ _ _ hlen] at h1'
        rcases (mem_foldl_jsSetAdd _ _ _).1 h1' with hacc | hc0
        · exact Or.inl hacc
        · refine Or.inr ⟨c0, List.mem_cons_self _ _, hc0, fun x hx => ?_⟩
          apply greedy_mono cs (greedyStep acc c0) i x
          show x ∈ (acc.1.set (minLoadIdx acc.2)
            (c0.1.foldl jsSetAdd (acc.1.getD (minLoadIdx acc.2) []))).getD i []
          rw [him]
          rw [getD_set_self _ _ _ _ hlen]
          exact (mem_foldl_jsSetAdd _ _ _).2 (Or.inr hx)
      · rw [getD_set_ne _ _ _ _ _ him] at h1'
        exact Or.inl h1'
    · obtain ⟨c, hc, hrc, hall⟩ := hcase
      exact Or.inr ⟨c, List.mem_cons_of_mem _ hc, hrc, hall⟩

theorem greedy_unique_aux (r : Option Int) (K : Nat) (hK : 0 < K)
    (cs : List (List (Option Int) × Nat)) :
    ∀ (acc : List (List (Option Int)) × List Nat),
      acc.1.length = K → acc.2.length = K →
      ((∃ i0, ∀ j, r ∈ acc.1.getD j [] ↔ j = i0) ∧
        cs.countP (fun c => decide (r ∈ c.1)) = 0) ∨
      ((∀ i, r ∉ acc.1.getD i []) ∧ cs.countP (fun c => decide (r ∈ c.1)) ≤ 1) →
      ∀ i j, r ∈ (cs.foldl greedyStep acc).1.getD i [] →
        r ∈ (cs.foldl greedyStep acc).1.getD j [] → i = j := by
  induction cs with
  | nil =>
    intro acc h1 h2 h i j hi hj
    rw [List.foldl_nil] at hi hj
    rcases h with ⟨⟨i0, hi0⟩, -⟩ | ⟨hno, -⟩
    · rw [(hi0 i).1 hi, (hi0 j).1 hj]
    · exact absurd hi (hno i)
  | cons c0 cs ih =>
    intro acc h1 h2 h i j hi hj
    have hstep1 : (greedyStep acc c0).1.length = K := by
      show (acc.1.set _ _).length = K
      rw [List.length_set]
      exact h1
    have hstep2 : (greedyStep acc c0).2.length = K := by
      show (acc.2.set _ _).length = K
      rw [List.length_set]
      exact h2
    have hmlt : minLoadIdx acc.2 < acc.1.length := by
      have := minLoadIdx_lt acc.2 (by omega)
      omega
    rw [List.foldl_cons] at hi hj
    apply ih (greedyStep acc c0) hstep1 hstep2 ?_ i j hi hj
    rcases h with ⟨⟨i0, hi0⟩, hcnt⟩ | ⟨hno, hcnt⟩
    · rw [List.countP_cons] at hcnt
      have hrc0 : r ∉ c0.1 := by
        intro hx
        rw [if_pos (by simpa using hx)] at hcnt
        omega
      have hcs : cs.countP (fun c => decide (r ∈ c.1)) = 0 := by
        rw [if_neg (by simpa using hrc0)] at hcnt
        omega
      refine Or.inl ⟨⟨i0, fun j' => ?_⟩, hcs⟩
      show r ∈ (acc.1.set (minLoadIdx acc.2)
        (c0.1.foldl jsSetAdd (acc.1.getD (minLoadIdx acc.2) []))).getD j' [] ↔ j' = i0
      by_cases hj' : minLoadIdx acc.2 = j'
      · rw [← hj']
        rw [getD_set_self _ _ _ _ hmlt]
        rw [mem_foldl_jsSetAdd]
        constructor
        · intro hmem
          rcases hmem with hmem | hmem
          · exact (hi0 _).1 hmem
          · exact absurd hmem hrc0
        · intro hji0
          exact Or.inl ((hi0 _).2 hji0)
      · rw [getD_set_ne _ _ _ _ _ hj']
        exact hi0 j'
    · rw [List.countP_cons] at hcnt
      by_cases hrc0 : r ∈ c0.1
      · have hcs : cs.countP (fun c => decide (r ∈ c.1)) = 0 := by
          rw [if_pos (by simpa using hrc0)] at hcnt
          omega
        refine Or.inl ⟨⟨minLoadIdx acc.2, fun j' => ?_⟩, hcs⟩
        show r ∈ (acc.1.set (minLoadIdx acc.2)
          (c0.1.foldl jsSetAdd (acc.1.getD (minLoadIdx acc.2) []))).getD j' [] ↔
          j' = minLoadIdx acc.2
        by_cases hj' : minLoadIdx acc.2 = j'
        · rw [← hj']
          rw [getD_set_self _ _ _ _ hmlt]
          rw [mem_foldl_jsSetAdd]
          exact ⟨fun _ => rfl, fun _ => Or.inr hrc0⟩
        · rw [getD_set_ne _ _ _ _ _ hj']
          constructor
          · intro hmem
            exact absurd hmem (hno j')
          · intro hjm
            exact absurd hjm.symm hj'
      · have hcs : cs.countP (fun c => decide (r ∈ c.1)) ≤ 1 := by
          rw [if_neg (by simpa using hrc0)] at hcnt
          omega
        refine Or.inr ⟨fun i' => ?_, hcs⟩
        show r ∉ (acc.1.set (minLoadIdx acc.2)
          (c0.1.foldl jsSetAdd (acc.1.getD (minLoadIdx acc.2) []))).getD i' []
        by_cases hi' : minLoadIdx acc.2 = i'
        · rw [← hi']
          rw [getD_set_self _ _ _ _ hmlt]
          rw [mem_foldl_jsSetAdd]
          intro hmem
          rcases hmem with hmem | hmem
          · exact hno _ hmem
          · exact hrc0 hmem
        · rw [getD_set_ne _ _ _ _ _ hi']
          exact hno i'

theorem greedy_unique (K : Nat) (hK : 0 < K) (cs : List (List (Option Int) × Nat))
    (r : Option Int) (hcnt : cs.countP (fun c => decide (r ∈ c.1)) ≤ 1) :
    ∀ i j, r ∈ (greedyAssign K cs).1.getD i [] →
      r ∈ (greedyAssign K cs).1.getD j [] → i = j := by
  rw [greedyAssign]
  apply greedy_unique_aux r K hK cs (List.replicate K [], List.replicate K 0)
    (List.length_replicate _ _) (List.length_replicate _ _)
  refine Or.inr ⟨fun i => ?_, hcnt⟩
  intro hmem
  have hlen : i < (List.replicate K ([] : List (Option Int))).length :=
    mem_getD_lt _ _ _ hmem
  rw [List.length_replicate] at hlen
  rw [List.getD_eq_getElem?_getD, List.getElem?_replicate, if_pos hlen] at hmem
  rw [Option.getD_some] at hmem
  exact absurd hmem (List.not_mem_nil r)

theorem not_mem_replicate_getD (K i : Nat) (r : Option Int) :
    r ∉ (List.replicate K ([] : List (Option Int))).getD i [] := by
  intro hmem
  have hlen : i < (List.replicate K ([] : List (Option Int))).length :=
    mem_getD_lt _ _ _ hmem
  rw [List.length_replicate] at hlen
  rw [List.getD_eq_getElem?_getD, List.getElem?_replicate, if_pos hlen,
    Option.getD_some] at hmem
  exact absurd hmem (List.not_mem_nil r)

theorem mem_groupInvs (rows : List SplitRow) (g : List (Option Int)) (inv : Option Int) :
    inv ∈ groupInvs rows g ↔ ∃ r ∈ g, inv ∈ invsOf rows r := by
  rw [groupInvs, mem_jsDedup, List.mem_flatMap]

theorem mem_allInvIds (rows : List SplitRow) (inv : Option Int) :
    inv ∈ allInvIds rows ↔ ∃ r ∈ rcptIds rows, inv ∈ invsOf rows r := by
  rw [allInvIds, mem_jsDedup, List.mem_flatMap]

theorem splitGroups_mem_rcpt (K : Nat) (rows : List SplitRow) :
    ∀ i, ∀ r ∈ (splitGroups K rows).getD i [], r ∈ rcptIds rows := by
  intro i r hr
  rw [splitGroups, greedyAssign] at hr
  rcases greedy_prov (compWithSize rows) _ i r hr with h | hcase
  · exact absurd h (not_mem_replicate_getD K i r)
  · obtain ⟨e, he, hre, -⟩ := hcase
    exact (compWithSize_mem rows r).1 ⟨e, he, hre⟩

theorem splitGroups_whole (K : Nat) (hK : 0 < K) (rows : List SplitRow) :
    ∀ e ∈ compWithSize rows, ∃ i, i < K ∧
      ∀ x ∈ e.1, x ∈ (splitGroups K rows).getD i [] := by
  intro e he
  rw [splitGroups, greedyAssign]
  exact greedy_whole (compWithSize rows) K hK _
    (List.length_replicate _ _) (List.length_replicate _ _) e he

theorem splitGroups_unique (K : Nat) (hK : 0 < K) (rows : List SplitRow)
    (r : Option Int) :
    ∀ i j, r ∈ (splitGroups K rows).getD i [] →
      r ∈ (splitGroups K rows).getD j [] → i = j := by
  rw [splitGroups]
  exact greedy_unique K hK (compWithSize rows) r (compWithSize_countP rows r)

theorem splitGroups_sameGroup (K : Nat) (rows : List SplitRow)
    (r r' : Option Int) (hr' : r' ∈ rcptIds rows)
    (hsame : SameRoot (unionAll rows).parent r r') :
    ∀ i, r ∈ (splitGroups K rows).getD i [] → r' ∈ (splitGroups K rows).getD i [] := by
  intro i hri
  rw [splitGroups, greedyAssign] at hri ⊢
  rcases greedy_prov (compWithSize rows) _ i r hri with h | hcase
  · exact absurd h (not_mem_replicate_getD K i r)
  · obtain ⟨e, he, hre, hall⟩ := hcase
    exact hall r' (compWithSize_closed rows e he r hre r' hr' hsame)

theorem splitGroups_length (K : Nat) (rows : List SplitRow) :
    (splitGroups K rows).length = K := by
  rw [splitGroups]
  exact (greedyAssign_lengths K (compWithSize rows)).1

/-- Claim C2: for any number of groups `K ≥ 1` and any input, the partition
computed by the graph partitioner assigns every grouping key of the input
to exactly one group, the resource-reference sets touched by distinct
groups are pairwise disjoint, and the union of resource-references across
all groups equals the union over the full input. -/
theorem splitGroups_partition_spec (K : Nat) (rows : List SplitRow) (hK : 1 ≤ K) :
    (splitGroups K rows).length = K ∧
    (∀ r ∈ rcptIds rows, ∃ i, i < K ∧ r ∈ (splitGroups K rows).getD i [] ∧
      ∀ j, r ∈ (splitGroups K rows).getD j [] → j = i) ∧
    (∀ i j, i ≠ j →
      ∀ inv ∈ groupInvs rows ((splitGroups K rows).getD i []),
        inv ∉ groupInvs rows ((splitGroups K rows).getD j [])) ∧
    (∀ inv, (∃ i, inv ∈ groupInvs rows ((splitGroups K rows).getD i [])) ↔
      inv ∈ allInvIds rows) := by
  have hK0 : 0 < K := hK
  refine ⟨splitGroups_length K rows, ?_, ?_, ?_⟩
  · intro r hr
    obtain ⟨e, he, hre⟩ := (compWithSize_mem rows r).2 hr
    obtain ⟨i, hiK, hall⟩ := splitGroups_whole K hK0 rows e he
    exact ⟨i, hiK, hall r hre,
      fun j hj => splitGroups_unique K hK0 rows r j i hj (hall r hre)⟩
  · intro i j hij inv hinvI hinvJ
    obtain ⟨r, hrI, hinvr⟩ := (mem_groupInvs rows _ inv).1 hinvI
    obtain ⟨r', hrJ, hinvr'⟩ := (mem_groupInvs rows _ inv).1 hinvJ
    have hrR : r ∈ rcptIds rows := splitGroups_mem_rcpt K rows i r hrI
    have hrR' : r' ∈ rcptIds rows := splitGroups_mem_rcpt K rows j r' hrJ
    have hinvAll : inv ∈ allInvIds rows := (mem_allInvIds rows inv).2 ⟨r, hrR, hinvr⟩
    have hrRec : r ∈ invReceipts rows inv :=
      List.mem_filter.2 ⟨hrR, by simpa using hinvr⟩
    have hrRec' : r' ∈ invReceipts rows inv :=
      List.mem_filter.2 ⟨hrR', by simpa using hinvr'⟩
    have hsame := (unionAll_spec rows).2 inv hinvAll r r' hrRec hrRec'
    have hr'I : r' ∈ (splitGroups K rows).getD i [] :=
      splitGroups_sameGroup K rows r r' hrR' hsame i hrI
    exact hij (splitGroups_unique K hK0 rows r' i j hr'I hrJ)
  · intro inv
    constructor
    · rintro ⟨i, hinvI⟩
      obtain ⟨r, hrI, hinvr⟩ := (mem_groupInvs rows _ inv).1 hinvI
      exact (mem_allInvIds rows inv).2 ⟨r, splitGroups_mem_rcpt K rows i r hrI, hinvr⟩
    · intro hinv
      obtain ⟨r, hrR, hinvr⟩ := (mem_allInvIds rows inv).1 hinv
      obtain ⟨e, he, hre⟩ := (compWithSize_mem rows r).2 hrR
      obtain ⟨i, hiK, hall⟩ := splitGroups_whole K hK0 rows e he
      exact ⟨i, (mem_groupInvs rows _ inv).2 ⟨r, hall r hre, hinvr⟩⟩

/-- A three-line input for exercising the partitioner: two receipts share a
resource-reference and a third is independent. -/
def c2Rows : List SplitRow :=
  [parseSplitRow (String.mk ['1', '\t', '1', '0', '\t', 'I', '\t', 'M', '\t', '1', '0', '0']),
   parseSplitRow (String.mk ['2', '\t', '1', '0', '\t', 'I', '\t', 'M', '\t', '2', '0', '0']),
   parseSplitRow (String.mk ['3', '\t', '3', '0', '\t', 'I', '\t', 'M', '\t', '3', '0', '0'])]

theorem splitGroups_partition_spec_witness :
    1 ≤ 3 ∧
    ((splitGroups 3 c2Rows).length = 3 ∧
     (∀ r ∈ rcptIds c2Rows, ∃ i, i < 3 ∧ r ∈ (splitGroups 3 c2Rows).getD i [] ∧
       ∀ j, r ∈ (splitGroups 3 c2Rows).getD j [] → j = i) ∧
     (∀ i j, i ≠ j →
       ∀ inv ∈ groupInvs c2Rows ((splitGroups 3 c2Rows).getD i []),
         inv ∉ groupInvs c2Rows ((splitGroups 3 c2Rows).getD j [])) ∧
     (∀ inv, (∃ i, inv ∈ groupInvs c2Rows ((splitGroups 3 c2Rows).getD i [])) ↔
       inv ∈ allInvIds c2Rows)) ∧
    splitGroups 3 c2Rows = [[some 100, some 200], [some 300], []] :=
  ⟨by decide, splitGroups_partition_spec 3 c2Rows (by decide), by decide⟩

/-- A one-line input and a deliberately overlapping pair of group sets for
exercising the overlap-verification and emission steps. -/
def c3Rows : List SplitRow :=
  [parseSplitRow (String.mk ['1', '\t', '1', '0', '\t', 'I', '\t', 'M', '\t', '1', '0', '0'])]

/-- Two groups that both contain the grouping key of `c3Rows`'s only line. -/
def c3Groups : List (List (Option Int)) :=
  [[some 100], [some 100]]

/-- Counterexample to claim C3: the overlap verification of `splitData.js`
only logs the overlap counts; when the group state has a non-empty receipt
and invoice overlap, no error is raised and the file-emission loop still
runs and writes the group files (each line going to the first matching
group). -/
theorem splitData_overlap_counterexample :
    receiptOverlap c3Groups 0 1 = [some 100] ∧
    invOverlap c3Rows c3Groups 0 1 = [some 10] ∧
    emitOutputs c3Rows c3Groups =
      [[String.mk ['1', '\t', '1', '0', '\t', 'I', '\t', 'M', '\t', '1', '0', '0']], []] := by
  decide

/-- Claim C3 (amended): `splitData.js` computes the pairwise receipt and
invoice overlaps of the groups but raises no error and emits the group
files unconditionally; what actually holds is that for the partition the
pipeline itself computes, every pairwise receipt overlap and invoice
overlap is empty. -/
theorem splitGroups_overlap_empty (rows : List SplitRow) (i j : Nat) (hij : i ≠ j) :
    receiptOverlap (splitGroups NUM_GROUPS rows) i j = [] ∧
    invOverlap rows (splitGroups NUM_GROUPS rows) i j = [] := by
  have hK0 : 0 < NUM_GROUPS := by decide
  constructor
  · rw [receiptOverlap, List.filter_eq_nil_iff]
    intro r hri
    simp only [decide_eq_true_eq]
    intro hrj
    exact hij (splitGroups_unique NUM_GROUPS hK0 rows r i j hri hrj)
  · rw [invOverlap, List.filter_eq_nil_iff]
    intro inv hinvI
    simp only [decide_eq_true_eq]
    intro hinvJ
    obtain ⟨r, hrI, hinvr⟩ := (mem_groupInvs rows _ inv).1 hinvI
    obtain ⟨r', hrJ, hinvr'⟩ := (mem_groupInvs rows _ inv).1 hinvJ
    have hrR : r ∈ rcptIds rows := splitGroups_mem_rcpt NUM_GROUPS rows i r hrI
    have hrR' : r' ∈ rcptIds rows := splitGroups_mem_rcpt NUM_GROUPS rows j r' hrJ
    have hinvAll : inv ∈ allInvIds rows := (mem_allInvIds rows inv).2 ⟨r, hrR, hinvr⟩
    have hrRec : r ∈ invReceipts rows inv :=
      List.mem_filter.2 ⟨hrR, by simpa using hinvr⟩
    have hrRec' : r' ∈ invReceipts rows inv :=
      List.mem_filter.2 ⟨hrR', by simpa using hinvr'⟩
    have hsame := (unionAll_spec rows).2 inv hinvAll r r' hrRec hrRec'
    have hr'I : r' ∈ (splitGroups NUM_GROUPS rows).getD i [] :=
      splitGroups_sameGroup NUM_GROUPS rows r r' hrR' hsame i hrI
    exact hij (splitGroups_unique NUM_GROUPS hK0 rows r' i j hr'I hrJ)

theorem splitGroups_overlap_empty_witness :
    (0 : Nat) ≠ 1 ∧
    (receiptOverlap (splitGroups NUM_GROUPS c3Rows) 0 1 = [] ∧
     invOverlap c3Rows (splitGroups NUM_GROUPS c3Rows) 0 1 = []) :=
  ⟨by decide, splitGroups_overlap_empty c3Rows 0 1 (by decide)⟩
